import Mathlib

/-!
# Verification of the read-buffer string column encoding

A shallow embedding of `read_buffer/src/column/string.rs`: the `StringEncoding`
facade, its two dictionary encodings (plain and run-length), and the three
construction paths (`From<&[Option<&str>]>`, `From<&[&str]>`, and the Arrow
array path, which shares its scan loop with the option-slice path).

The facade and the construction loops are translated directly from the source.
The inner `Plain` and `RLE` encodings live in `super::encoding::dictionary`,
which is not part of the provided sources; their state and operations are
modelled from the specification (sections 3, 4.2, 4.3) and are marked
`Modelled from the spec:` below.

Machine integers (`u32`, `usize`) are modelled as `Nat`; the spec guarantees
row counts, row ids and encoded ids fit in 32 bits, so no wrap-around can
occur on the values the code manipulates. Rust panics are modelled by
`Option`/explicit result types.
-/

/-- Mirrors `TEMP_CARDINALITY_DICTIONARY_ENCODING_LIMIT` in `string.rs`. -/
def TEMP_CARDINALITY_DICTIONARY_ENCODING_LIMIT : Nat := 100000

/-- Mirrors `crate::column::Value` restricted to the string variants the
facade produces: a borrowed string or NULL. -/
inductive Value where
  | String (s : String) : Value
  | Null : Value
deriving DecidableEq, Repr

/-- Mirrors `crate::column::Values::String`: a batch of optional strings in
input order. -/
inductive Values where
  | String (vs : List (Option String)) : Values
deriving DecidableEq, Repr

/-- Mirrors the `either::Either` sum type used by `group_row_ids`. -/
inductive Either (α : Type) (β : Type) where
  | left (a : α) : Either α β
  | right (b : β) : Either α β
deriving DecidableEq, Repr

/-- Mirrors `cmp::Operator`: the six comparison operators of `row_ids_filter`. -/
inductive Operator where
  | equal | notEqual | lt | lte | gt | gte
deriving DecidableEq, Repr

/-- Modelled from the spec: a `RowIDs` set is "an unordered set of row ids
with ascending iteration"; we model it as a `Finset Nat`. -/
abbrev RowIDs := Finset Nat

/-! ## Dictionary primitives

Modelled from the spec: "a lexicographically sorted sequence of distinct
non-null strings.  Each string has a stable encoded id equal to its 1-based
position in the dictionary.  The reserved encoded id 0 denotes NULL."
The builder collects the dictionary in a `BTreeSet<String>`, which we model
as sorted insertion into a strictly sorted list. -/

/-- Sorted-set insertion: the `BTreeSet::insert` of the ingest path. -/
def insertSorted (s : String) : List String → List String
  | [] => [s]
  | x :: xs =>
    if s < x then s :: x :: xs
    else if s = x then x :: xs
    else x :: insertSorted s xs

/-- The sorted dictionary of distinct non-null strings of the input
(the first scan of every `From` impl in `string.rs`). -/
def buildDictionary (arr : List (Option String)) : List String :=
  arr.foldl (fun d v => match v with | some s => insertSorted s d | none => d) []

/-- 0-based index of the first occurrence of `s` in `dict`
(`dict.length` when absent). -/
def dictIndex : List String → String → Nat
  | [], _ => 0
  | x :: xs, s => if s = x then 0 else dictIndex xs s + 1

/-- Modelled from the spec: `push_additional` "resolves `value` to an id
(0 for NULL)"; a non-null string maps to its 1-based dictionary position. -/
def encodeVal (dict : List String) (v : Option String) : Nat :=
  match v with
  | none => 0
  | some s => dictIndex dict s + 1

/-- Modelled from the spec: the encodings' `decode_id` returns the dictionary
string for an id, with `None` for the reserved NULL id 0 and for an
out-of-range id (section 4.2 table; the result type `Option<&str>` is forced
by the facade's `match` in `string.rs`). -/
def dictDecode (dict : List String) (e : Nat) : Option String :=
  if e = 0 then none else dict.get? (e - 1)

/-- Lexicographic running minimum used for the cached column min. -/
def minOpt (cur : Option String) (s : String) : Option String :=
  match cur with
  | none => some s
  | some m => some (min m s)

/-- Lexicographic running maximum used for the cached column max. -/
def maxOpt (cur : Option String) (s : String) : Option String :=
  match cur with
  | none => some s
  | some m => some (max m s)

/-! ## Plain dictionary encoding

Modelled from the spec (section 4.2): state is the sorted dictionary, one
encoded id per row, and cached aggregates (the optional lexicographic
min/max of the non-null values, `None` iff all-null). -/

structure Plain where
  dictionary : List String
  ids : List Nat
  colMin : Option String
  colMax : Option String
deriving DecidableEq, Repr

/-- Modelled from the spec: `Plain::with_dictionary` seeds an empty column
with the sorted dictionary (this assigns ids deterministically in lex
order). -/
def Plain.withDictionary (dict : List String) : Plain :=
  { dictionary := dict, ids := [], colMin := none, colMax := none }

/-- Modelled from the spec: the plain `push_additional(value, count)`
appends `count` copies of the resolved id and keeps the cached min/max in
step with the non-null values actually referenced by rows. -/
def Plain.pushAdditional (p : Plain) (v : Option String) (count : Nat) : Plain :=
  let id := encodeVal p.dictionary v
  { p with
    ids := p.ids ++ List.replicate count id
    colMin := match v with
      | some s => if count = 0 then p.colMin else minOpt p.colMin s
      | none => p.colMin
    colMax := match v with
      | some s => if count = 0 then p.colMax else maxOpt p.colMax s
      | none => p.colMax }

def Plain.numRows (p : Plain) : Nat := p.ids.length

def Plain.columnMin (p : Plain) : Option String := p.colMin

def Plain.columnMax (p : Plain) : Option String := p.colMax

/-- Modelled from the spec: invariant 4, "any entry of `ids` is 0". -/
def Plain.containsNull (p : Plain) : Bool := p.ids.contains 0

/-- Modelled from the spec: "N − #nulls > 0". -/
def Plain.hasAnyNonNullValue (p : Plain) : Bool :=
  decide (0 < p.ids.length - p.ids.count 0)

/-- Modelled from the spec: "true iff any row in list has id ≠ 0". -/
def Plain.hasNonNullValue (p : Plain) (rowIds : List Nat) : Bool :=
  rowIds.any (fun r => p.ids.getD r 0 ≠ 0)

/-- Modelled from the spec: the logical value at a row, obtained by decoding
the row's id (`None` is NULL). -/
def Plain.value (p : Plain) (rowId : Nat) : Option String :=
  dictDecode p.dictionary (p.ids.getD rowId 0)

/-- Modelled from the spec: appends, in input order, the logical value at
each requested row into the destination buffer. -/
def Plain.values (p : Plain) (rowIds : List Nat) (dst : List (Option String)) :
    List (Option String) :=
  dst ++ rowIds.map p.value

/-- Modelled from the spec: appends all N logical values in row order. -/
def Plain.allValues (p : Plain) (dst : List (Option String)) : List (Option String) :=
  dst ++ p.ids.map (dictDecode p.dictionary)

def Plain.decodeId (p : Plain) (encodedId : Nat) : Option String :=
  dictDecode p.dictionary encodedId

/-- Modelled from the spec: the distinct set of logical values (including
NULL) at the provided rows. -/
def Plain.distinctValues (p : Plain) (rowIds : List Nat)
    (dst : Finset (Option String)) : Finset (Option String) :=
  dst ∪ (rowIds.map p.value).toFinset

/-- The number of dictionary entries lexicographically below `v`: the
insertion point a binary search for `v` finds. -/
def countLt (dict : List String) (v : String) : Nat :=
  dict.countP (fun x => decide (x < v))

/-- The number of dictionary entries lexicographically at or below `v`. -/
def countLe (dict : List String) (v : String) : Nat :=
  dict.countP (fun x => decide (x ≤ v))

/-- Row-id scan: the rows of `ids` whose encoded id satisfies `pred`.
Modelled from the spec: the plain encoding answers filters by "a linear scan
of `ids` collecting matches". -/
def scanFilter (ids : List Nat) (pred : Nat → Bool) : RowIDs :=
  (Finset.range ids.length).filter (fun r => pred (ids.getD r 0) = true)

/-- Modelled from the spec (section 4.2): filters binary-search `v` in the
sorted dictionary (giving the insertion points `countLt`/`countLe`; `v` is
present iff they differ, and then has id `countLt + 1`), then linearly scan
`ids` comparing each row's id with the threshold, skipping NULL (id 0). -/
def Plain.rowIdsFilter (p : Plain) (v : String) (op : Operator) (dst : RowIDs) : RowIDs :=
  let ipLt := countLt p.dictionary v
  let ipLe := countLe p.dictionary v
  dst ∪ match op with
  | .equal =>
    if ipLt = ipLe then ∅ else scanFilter p.ids (fun id => id = ipLt + 1)
  | .notEqual =>
    if ipLt = ipLe then scanFilter p.ids (fun id => id ≠ 0)
    else scanFilter p.ids (fun id => id ≠ 0 && id ≠ ipLt + 1)
  | .lt => scanFilter p.ids (fun id => 1 ≤ id && id ≤ ipLt)
  | .lte => scanFilter p.ids (fun id => 1 ≤ id && id ≤ ipLe)
  | .gt => scanFilter p.ids (fun id => ipLe < id)
  | .gte => scanFilter p.ids (fun id => ipLt < id)

/-- The running minimum over non-NULL encoded ids (0 when none seen yet);
because the dictionary is sorted, the smallest id decodes to the
lexicographic minimum. -/
def minNonNullId (idAt : Nat → Nat) (rowIds : List Nat) : Nat :=
  rowIds.foldl
    (fun acc r =>
      if idAt r = 0 then acc else if acc = 0 then idAt r else min acc (idAt r)) 0

/-- The running maximum over non-NULL encoded ids (0 when none seen yet). -/
def maxNonNullId (idAt : Nat → Nat) (rowIds : List Nat) : Nat :=
  rowIds.foldl (fun acc r => max acc (idAt r)) 0

/-- Modelled from the spec: the lexicographic minimum non-null value at the
rows, found by scanning the rows' encoded ids. -/
def Plain.min (p : Plain) (rowIds : List Nat) : Option String :=
  dictDecode p.dictionary (minNonNullId (fun r => p.ids.getD r 0) rowIds)

/-- Modelled from the spec: the lexicographic maximum non-null value at the
rows, found by scanning the rows' encoded ids. -/
def Plain.max (p : Plain) (rowIds : List Nat) : Option String :=
  dictDecode p.dictionary (maxNonNullId (fun r => p.ids.getD r 0) rowIds)

/-- Modelled from the spec: "number of non-null rows among rows". -/
def Plain.count (p : Plain) (rowIds : List Nat) : Nat :=
  rowIds.countP (fun r => decide (p.ids.getD r 0 ≠ 0))

/-- Modelled from the spec: one RowID set per dictionary entry, indexed by
its encoded id, computed on demand (position 0 holds the NULL rows). -/
def Plain.groupRowIds (p : Plain) : List RowIDs :=
  (List.range (p.dictionary.length + 1)).map
    (fun e => scanFilter p.ids (fun id => id = e))

/-- Modelled from the spec: encoded ids at the requested rows, appended to
the destination buffer. -/
def Plain.encodedValues (p : Plain) (rowIds : List Nat) (dst : List Nat) : List Nat :=
  dst ++ rowIds.map (fun r => p.ids.getD r 0)

/-- Modelled from the spec: all N encoded ids, appended to `dst`. -/
def Plain.allEncodedValues (p : Plain) (dst : List Nat) : List Nat :=
  dst ++ p.ids

/-- Modelled from the spec: "true iff ∃ row with non-null value v ∉ S". -/
def Plain.hasOtherNonNullValues (p : Plain) (values : Finset String) : Bool :=
  p.ids.any (fun id => id ≠ 0 && decide (p.dictionary.getD (id - 1) "" ∉ values))

/-! ## Run-length dictionary encoding

Modelled from the spec (section 4.3): state is the sorted dictionary, the
run list of (encoded-id, run-length) pairs, the inverted index
`row_ids_by_id` (one RowID set per encoded id, including 0 for NULL), the
row count, and the same cached aggregates as the plain encoding. -/

structure RLE where
  dictionary : List String
  runs : List (Nat × Nat)
  rowIdsById : List RowIDs
  numRows : Nat
  colMin : Option String
  colMax : Option String
deriving DecidableEq

/-- Modelled from the spec: `RLE::with_dictionary` seeds an empty column
with the sorted dictionary and one empty RowID set per encoded id. -/
def RLE.withDictionary (dict : List String) : RLE :=
  { dictionary := dict
    runs := []
    rowIdsById := List.replicate (dict.length + 1) ∅
    numRows := 0
    colMin := none
    colMax := none }

/-- Union a Finset into position `i` of the inverted index. -/
def setUnionAt (l : List RowIDs) (i : Nat) (s : RowIDs) : List RowIDs :=
  l.set i (l.getD i ∅ ∪ s)

/-- Modelled from the spec: the RLE `push_additional(value, count)` emits a
new run of length `count` (merging with the previous run when the ids
coincide, so that no two adjacent runs share an id), records the row-id
range `[next_row, next_row + count)` into `row_ids_by_id[id]`, and keeps
the cached min/max in step. A zero count changes nothing. -/
def RLE.pushAdditional (r : RLE) (v : Option String) (count : Nat) : RLE :=
  if count = 0 then r
  else
    let id := encodeVal r.dictionary v
    { r with
      runs :=
        match r.runs.getLast? with
        | some (lastId, lastCount) =>
          if lastId = id then r.runs.dropLast ++ [(id, lastCount + count)]
          else r.runs ++ [(id, count)]
        | none => [(id, count)]
      rowIdsById := setUnionAt r.rowIdsById id (Finset.Ico r.numRows (r.numRows + count))
      numRows := r.numRows + count
      colMin := match v with
        | some s => minOpt r.colMin s
        | none => r.colMin
      colMax := match v with
        | some s => maxOpt r.colMax s
        | none => r.colMax }

def RLE.columnMin (r : RLE) : Option String := r.colMin

def RLE.columnMax (r : RLE) : Option String := r.colMax

/-- The encoded id at a row: walk the run list with a cumulative cursor
(0 when the row is past the end, a programmer error in the source). -/
def runIdAt : List (Nat × Nat) → Nat → Nat
  | [], _ => 0
  | (id, c) :: rest, row => if row < c then id else runIdAt rest (row - c)

/-- Modelled from the spec: invariant 4, "`row_ids_by_id[0]` is non-empty". -/
def RLE.containsNull (r : RLE) : Bool := decide (r.rowIdsById.getD 0 ∅ ≠ ∅)

/-- Modelled from the spec: "N − #nulls > 0", reading the null count off the
inverted index. -/
def RLE.hasAnyNonNullValue (r : RLE) : Bool :=
  decide (0 < r.numRows - (r.rowIdsById.getD 0 ∅).card)

/-- Modelled from the spec: "true iff any row in list has id ≠ 0", by the
run walk. -/
def RLE.hasNonNullValue (r : RLE) (rowIds : List Nat) : Bool :=
  rowIds.any (fun row => runIdAt r.runs row ≠ 0)

/-- Modelled from the spec: the logical value at a row, decoding the id the
run walk finds. -/
def RLE.value (r : RLE) (rowId : Nat) : Option String :=
  dictDecode r.dictionary (runIdAt r.runs rowId)

/-- Modelled from the spec: logical values at the rows, in input order. -/
def RLE.values (r : RLE) (rowIds : List Nat) (dst : List (Option String)) :
    List (Option String) :=
  dst ++ rowIds.map r.value

/-- Modelled from the spec: walk the run list emitting each run's decoded
value `length` times. -/
def RLE.allValues (r : RLE) (dst : List (Option String)) : List (Option String) :=
  dst ++ r.runs.foldr (fun p acc => List.replicate p.2 (dictDecode r.dictionary p.1) ++ acc) []

def RLE.decodeId (r : RLE) (encodedId : Nat) : Option String :=
  dictDecode r.dictionary encodedId

/-- Modelled from the spec: the distinct set of logical values (including
NULL) at the provided rows. -/
def RLE.distinctValues (r : RLE) (rowIds : List Nat)
    (dst : Finset (Option String)) : Finset (Option String) :=
  dst ∪ (rowIds.map r.value).toFinset

/-- Union of the inverted-index sets of every encoded id `e ≤ D` satisfying
`pred`: the "union row-id sets for every dictionary id on the qualifying
side" step of the RLE filters. -/
def RLE.unionSets (r : RLE) (pred : Nat → Bool) : RowIDs :=
  ((List.range (r.dictionary.length + 1)).filter pred).foldl
    (fun acc e => acc ∪ r.rowIdsById.getD e ∅) ∅

/-- Modelled from the spec (section 4.3): filters exploit the inverted
index. Equality clones `row_ids_by_id[e]` (empty when `v` is absent);
not-equals unions the sets of every id other than 0 and `e`; ordered
predicates binary-search `v` and union the sets on the qualifying side of
the threshold, always excluding NULL (id 0). -/
def RLE.rowIdsFilter (r : RLE) (v : String) (op : Operator) (dst : RowIDs) : RowIDs :=
  let ipLt := countLt r.dictionary v
  let ipLe := countLe r.dictionary v
  dst ∪ match op with
  | .equal =>
    if ipLt = ipLe then ∅ else r.rowIdsById.getD (ipLt + 1) ∅
  | .notEqual =>
    if ipLt = ipLe then r.unionSets (fun e => e ≠ 0)
    else r.unionSets (fun e => e ≠ 0 && e ≠ ipLt + 1)
  | .lt => r.unionSets (fun e => 1 ≤ e && e ≤ ipLt)
  | .lte => r.unionSets (fun e => 1 ≤ e && e ≤ ipLe)
  | .gt => r.unionSets (fun e => ipLe < e)
  | .gte => r.unionSets (fun e => ipLt < e)

/-- Modelled from the spec: scan-based minimum via the run walk. -/
def RLE.min (r : RLE) (rowIds : List Nat) : Option String :=
  dictDecode r.dictionary (minNonNullId (fun row => runIdAt r.runs row) rowIds)

/-- Modelled from the spec: scan-based maximum via the run walk. -/
def RLE.max (r : RLE) (rowIds : List Nat) : Option String :=
  dictDecode r.dictionary (maxNonNullId (fun row => runIdAt r.runs row) rowIds)

/-- Modelled from the spec: "number of non-null rows among rows". -/
def RLE.count (r : RLE) (rowIds : List Nat) : Nat :=
  rowIds.countP (fun row => decide (runIdAt r.runs row ≠ 0))

/-- Modelled from the spec: borrowed references to the internally maintained
per-id sets. -/
def RLE.groupRowIds (r : RLE) : List RowIDs := r.rowIdsById

/-- Modelled from the spec: encoded ids at the rows, via the run walk. -/
def RLE.encodedValues (r : RLE) (rowIds : List Nat) (dst : List Nat) : List Nat :=
  dst ++ rowIds.map (fun row => runIdAt r.runs row)

/-- Modelled from the spec: walk the run list emitting each run's id
`length` times. -/
def RLE.allEncodedValues (r : RLE) (dst : List Nat) : List Nat :=
  dst ++ r.runs.foldr (fun p acc => List.replicate p.2 p.1 ++ acc) []

/-- Modelled from the spec: iterate the dictionary in sorted order and
return true on the first non-null id present in `row_ids_by_id` whose
string is not in `values`; id 0 is ignored. -/
def RLE.hasOtherNonNullValues (r : RLE) (values : Finset String) : Bool :=
  (List.range r.dictionary.length).any
    (fun j => decide (r.dictionary.getD j "" ∉ values)
      && decide (r.rowIdsById.getD (j + 1) ∅ ≠ ∅))

/-! ## The `StringEncoding` facade (translated from `string.rs`) -/

inductive StringEncoding where
  | RLEDictionary (enc : RLE) : StringEncoding
  | Dictionary (enc : Plain) : StringEncoding
deriving DecidableEq

/-- `StringEncoding::num_rows`. -/
def StringEncoding.numRows : StringEncoding → Nat
  | .RLEDictionary enc => enc.numRows
  | .Dictionary enc => enc.numRows

/-- The result of `StringEncoding::column_range`, whose mixed branch is a
`panic!`; `invalid` models the panic. -/
inductive ColumnRangeResult where
  | ok (range : Option (String × String)) : ColumnRangeResult
  | invalid : ColumnRangeResult
deriving DecidableEq, Repr

/-- `StringEncoding::column_range`: `None` when both cached extrema are
absent, the pair when both are present, and a panic otherwise. -/
def StringEncoding.columnRange : StringEncoding → ColumnRangeResult
  | .RLEDictionary enc =>
    match enc.columnMin, enc.columnMax with
    | none, none => .ok none
    | some mn, some mx => .ok (some (mn, mx))
    | _, _ => .invalid
  | .Dictionary enc =>
    match enc.columnMin, enc.columnMax with
    | none, none => .ok none
    | some mn, some mx => .ok (some (mn, mx))
    | _, _ => .invalid

/-- `StringEncoding::contains_null`. -/
def StringEncoding.containsNull : StringEncoding → Bool
  | .RLEDictionary enc => enc.containsNull
  | .Dictionary enc => enc.containsNull

/-- `StringEncoding::has_pre_computed_row_id_sets`. -/
def StringEncoding.hasPreComputedRowIdSets : StringEncoding → Bool
  | .RLEDictionary _ => true
  | .Dictionary _ => false

/-- `StringEncoding::has_any_non_null_value`. -/
def StringEncoding.hasAnyNonNullValue : StringEncoding → Bool
  | .RLEDictionary c => c.hasAnyNonNullValue
  | .Dictionary c => c.hasAnyNonNullValue

/-- `StringEncoding::has_non_null_value`. -/
def StringEncoding.hasNonNullValue : StringEncoding → List Nat → Bool
  | .RLEDictionary c, rowIds => c.hasNonNullValue rowIds
  | .Dictionary c, rowIds => c.hasNonNullValue rowIds

/-- `StringEncoding::has_other_non_null_values`. -/
def StringEncoding.hasOtherNonNullValues : StringEncoding → Finset String → Bool
  | .RLEDictionary c, values => c.hasOtherNonNullValues values
  | .Dictionary c, values => c.hasOtherNonNullValues values

/-- `StringEncoding::value`: wraps the encoding's optional result into a
`Value` (`None` becomes NULL). -/
def StringEncoding.value : StringEncoding → Nat → Value
  | .RLEDictionary c, rowId =>
    match c.value rowId with
    | some v => .String v
    | none => .Null
  | .Dictionary c, rowId =>
    match c.value rowId with
    | some v => .String v
    | none => .Null

/-- `StringEncoding::values` (with a fresh destination vector, as in the
source). -/
def StringEncoding.values : StringEncoding → List Nat → Values
  | .RLEDictionary c, rowIds => .String (c.values rowIds [])
  | .Dictionary c, rowIds => .String (c.values rowIds [])

/-- `StringEncoding::all_values`. -/
def StringEncoding.allValues : StringEncoding → Values
  | .RLEDictionary c => .String (c.allValues [])
  | .Dictionary c => .String (c.allValues [])

/-- `StringEncoding::decode_id`: wraps the encoding's optional result into a
`Value`, so the inner `None` (NULL id or out-of-range id) becomes NULL. -/
def StringEncoding.decodeId : StringEncoding → Nat → Value
  | .RLEDictionary c, encodedId =>
    match c.decodeId encodedId with
    | some v => .String v
    | none => .Null
  | .Dictionary c, encodedId =>
    match c.decodeId encodedId with
    | some v => .String v
    | none => .Null

/-- `StringEncoding::distinct_values` (with a fresh destination set). -/
def StringEncoding.distinctValues : StringEncoding → List Nat → Finset (Option String)
  | .RLEDictionary c, rowIds => c.distinctValues rowIds ∅
  | .Dictionary c, rowIds => c.distinctValues rowIds ∅

/-- `StringEncoding::row_ids_filter`. -/
def StringEncoding.rowIdsFilter : StringEncoding → Operator → String → RowIDs → RowIDs
  | .RLEDictionary c, op, v, dst => c.rowIdsFilter v op dst
  | .Dictionary c, op, v, dst => c.rowIdsFilter v op dst

/-- `StringEncoding::min`. -/
def StringEncoding.min : StringEncoding → List Nat → Value
  | .RLEDictionary c, rowIds =>
    match c.min rowIds with
    | some mn => .String mn
    | none => .Null
  | .Dictionary c, rowIds =>
    match c.min rowIds with
    | some mn => .String mn
    | none => .Null

/-- `StringEncoding::max`. -/
def StringEncoding.max : StringEncoding → List Nat → Value
  | .RLEDictionary c, rowIds =>
    match c.max rowIds with
    | some mx => .String mx
    | none => .Null
  | .Dictionary c, rowIds =>
    match c.max rowIds with
    | some mx => .String mx
    | none => .Null

/-- `StringEncoding::count`. -/
def StringEncoding.count : StringEncoding → List Nat → Nat
  | .RLEDictionary c, rowIds => c.count rowIds
  | .Dictionary c, rowIds => c.count rowIds

/-- `StringEncoding::group_row_ids`: borrowed sets for RLE, owned sets for
plain. -/
def StringEncoding.groupRowIds : StringEncoding → Either (List RowIDs) (List RowIDs)
  | .RLEDictionary enc => .left enc.groupRowIds
  | .Dictionary enc => .right enc.groupRowIds

/-- `StringEncoding::encoded_values`. -/
def StringEncoding.encodedValues : StringEncoding → List Nat → List Nat → List Nat
  | .RLEDictionary c, rowIds, dst => c.encodedValues rowIds dst
  | .Dictionary c, rowIds, dst => c.encodedValues rowIds dst

/-- `StringEncoding::all_encoded_values`. -/
def StringEncoding.allEncodedValues : StringEncoding → List Nat → List Nat
  | .RLEDictionary c, dst => c.allEncodedValues dst
  | .Dictionary c, dst => c.allEncodedValues dst

/-! ## Builder / ingest path (translated from the `From` impls in `string.rs`) -/

/-- Mirrors `encoding::dictionary::Encoding`, the builder-side enum the
`From` impls push batches into. -/
inductive Encoding where
  | RLE (enc : RLE) : Encoding
  | Plain (enc : Plain) : Encoding
deriving DecidableEq

/-- `Encoding::push_additional`. -/
def Encoding.pushAdditional : Encoding → Option String → Nat → Encoding
  | .RLE enc, v, count => .RLE (enc.pushAdditional v count)
  | .Plain enc, v, count => .Plain (enc.pushAdditional v count)

/-- The second scan of every `From` impl: starting from `prev` seen `count`
times, collapse the rest of the input into `(value, run_length)` batches.
Option equality makes NULL equal NULL, so consecutive NULL rows merge. -/
def buildBatches (prev : Option String) (count : Nat) :
    List (Option String) → List (Option String × Nat)
  | [] => [(prev, count)]
  | next :: rest =>
    if prev = next then buildBatches prev (count + 1) rest
    else (prev, count) :: buildBatches next 1 rest

/-- The batches the builder emits for input `a :: rest` (the loop starts
with `prev = arr[0]`, `count = 1`). -/
def rleBatches (a : Option String) (rest : List (Option String)) :
    List (Option String × Nat) :=
  buildBatches a 1 rest

/-- The logical rows a batch list stands for. -/
def expandBatches (batches : List (Option String × Nat)) : List (Option String) :=
  batches.foldr (fun b acc => List.replicate b.2 b.1 ++ acc) []

/-- `From<&[Option<&str>]> for StringEncoding`: build the sorted dictionary,
pick the encoding by cardinality, then stream the run batches in. `arr[0]`
panics on an empty slice, modelled by `none`. -/
def StringEncoding.fromOptionSlice (arr : List (Option String)) : Option StringEncoding :=
  match arr with
  | [] => none
  | a :: rest =>
    let dict := buildDictionary arr
    let init : Encoding :=
      if dict.length > TEMP_CARDINALITY_DICTIONARY_ENCODING_LIMIT then
        .Plain (Plain.withDictionary dict)
      else .RLE (RLE.withDictionary dict)
    let data := (rleBatches a rest).foldl (fun d b => d.pushAdditional b.1 b.2) init
    some (match data with
      | .RLE enc => .RLEDictionary enc
      | .Plain enc => .Dictionary enc)

/-- The column `From<&[Option<&str>]>` builds, for a non-empty input
(junk value on the empty input, where the source panics). -/
def built (arr : List (Option String)) : StringEncoding :=
  (StringEncoding.fromOptionSlice arr).getD (.Dictionary (Plain.withDictionary []))

/-- The ingest path with the encoding choice forced to plain (the spec's
"force selection by lowering the threshold"); same dictionary, same
batches. -/
def builtForcedPlain (arr : List (Option String)) : Option StringEncoding :=
  match arr with
  | [] => none
  | a :: rest =>
    let init : Encoding := .Plain (Plain.withDictionary (buildDictionary arr))
    let data := (rleBatches a rest).foldl (fun d b => d.pushAdditional b.1 b.2) init
    some (match data with
      | .RLE enc => .RLEDictionary enc
      | .Plain enc => .Dictionary enc)

/-- The ingest path with the encoding choice forced to run-length. -/
def builtForcedRLE (arr : List (Option String)) : Option StringEncoding :=
  match arr with
  | [] => none
  | a :: rest =>
    let init : Encoding := .RLE (RLE.withDictionary (buildDictionary arr))
    let data := (rleBatches a rest).foldl (fun d b => d.pushAdditional b.1 b.2) init
    some (match data with
      | .RLE enc => .RLEDictionary enc
      | .Plain enc => .Dictionary enc)

/-- The string-only second scan of `From<&[&str]>`: every pushed batch is
non-null. -/
def buildBatchesStr (prev : String) (count : Nat) :
    List String → List (String × Nat)
  | [] => [(prev, count)]
  | next :: rest =>
    if prev = next then buildBatchesStr prev (count + 1) rest
    else (prev, count) :: buildBatchesStr next 1 rest

/-- `From<&[&str]> for StringEncoding`: the dictionary collects every
element (none are null), and the scan pushes `Some(prev)` batches only.
`arr[0]` panics on an empty slice, modelled by `none`. -/
def StringEncoding.fromStrSlice (arr : List String) : Option StringEncoding :=
  match arr with
  | [] => none
  | a :: rest =>
    let dict := arr.foldl (fun d s => insertSorted s d) []
    let init : Encoding :=
      if dict.length > TEMP_CARDINALITY_DICTIONARY_ENCODING_LIMIT then
        .Plain (Plain.withDictionary dict)
      else .RLE (RLE.withDictionary dict)
    let data := (buildBatchesStr a 1 rest).foldl
      (fun d b => d.pushAdditional (some b.1) b.2) init
    some (match data with
      | .RLE enc => .RLEDictionary enc
      | .Plain enc => .Dictionary enc)

/-- The column `From<&[&str]>` builds, for a non-empty input. -/
def builtStr (arr : List String) : StringEncoding :=
  (StringEncoding.fromStrSlice arr).getD (.Dictionary (Plain.withDictionary []))

/-! ## Properties of the builder's second scan -/

theorem expandBatches_cons (b : Option String × Nat) (bs : List (Option String × Nat)) :
    expandBatches (b :: bs) = List.replicate b.2 b.1 ++ expandBatches bs := rfl

/-- The batch list stands for exactly `count` copies of `prev` followed by
the remaining input. -/
theorem expandBatches_buildBatches (rest : List (Option String)) :
    ∀ (prev : Option String) (count : Nat),
      expandBatches (buildBatches prev count rest) = List.replicate count prev ++ rest := by
  induction rest with
  | nil =>
    intro prev count
    simp [buildBatches, expandBatches]
  | cons next rest ih =>
    intro prev count
    by_cases h : prev = next
    · subst h
      rw [buildBatches, if_pos rfl, ih]
      rw [List.replicate_add]
      simp
    · rw [buildBatches, if_neg h, expandBatches_cons, ih]
      simp

theorem buildBatches_counts_pos (rest : List (Option String)) :
    ∀ (prev : Option String) (count : Nat), 1 ≤ count →
      ∀ b ∈ buildBatches prev count rest, 1 ≤ b.2 := by
  induction rest with
  | nil =>
    intro prev count hc b hb
    simp [buildBatches] at hb
    subst hb; exact hc
  | cons next rest ih =>
    intro prev count hc b hb
    by_cases h : prev = next
    · rw [buildBatches, if_pos h] at hb
      exact ih prev (count + 1) (Nat.le_add_left 1 count) b hb
    · rw [buildBatches, if_neg h] at hb
      rcases List.mem_cons.mp hb with h1 | h1
      · subst h1; exact hc
      · exact ih next 1 le_rfl b h1

theorem buildBatches_head_fst (rest : List (Option String)) :
    ∀ (prev : Option String) (count : Nat),
      (buildBatches prev count rest).head?.map Prod.fst = some prev := by
  induction rest with
  | nil => intro prev count; simp [buildBatches]
  | cons next rest ih =>
    intro prev count
    by_cases h : prev = next
    · rw [buildBatches, if_pos h]; exact ih prev (count + 1)
    · rw [buildBatches, if_neg h]; simp

/-- No two consecutive batches carry an equal value. -/
theorem buildBatches_chain (rest : List (Option String)) :
    ∀ (prev : Option String) (count : Nat),
      List.Chain' (fun x y : Option String × Nat => x.1 ≠ y.1)
        (buildBatches prev count rest) := by
  induction rest with
  | nil => intro prev count; simp [buildBatches]
  | cons next rest ih =>
    intro prev count
    by_cases h : prev = next
    · rw [buildBatches, if_pos h]; exact ih prev (count + 1)
    · rw [buildBatches, if_neg h]
      refine List.Chain'.cons' (ih next 1) ?_
      intro y hy
      have hh := buildBatches_head_fst rest next 1
      rw [hy] at hh
      simp at hh
      simp [hh, h]

/-- The run lengths of a batch list sum to the length of its expansion. -/
theorem expandBatches_length (bs : List (Option String × Nat)) :
    (expandBatches bs).length = (bs.map Prod.snd).sum := by
  induction bs with
  | nil => rfl
  | cons b bs ih => rw [expandBatches_cons]; simp [ih]

/-- Every value carried by a batch occurs in the expansion (given positive
counts). -/
theorem batch_val_mem_expand (bs : List (Option String × Nat))
    (hpos : ∀ b ∈ bs, 1 ≤ b.2) :
    ∀ b ∈ bs, b.1 ∈ expandBatches bs := by
  induction bs with
  | nil => intro b hb; cases hb
  | cons x bs ih =>
    intro b hb
    rw [expandBatches_cons]
    rcases List.mem_cons.mp hb with h1 | h1
    · subst h1
      have : 1 ≤ b.2 := hpos b (List.mem_cons_self b bs)
      exact List.mem_append_left _ (List.mem_replicate.mpr ⟨by omega, rfl⟩)
    · exact List.mem_append_right _ (ih (fun c hc => hpos c (List.mem_cons_of_mem x hc)) b h1)

/-! ## Dictionary lemmas -/

theorem insertSorted_mem (s x : String) (l : List String) :
    x ∈ insertSorted s l ↔ x = s ∨ x ∈ l := by
  induction l with
  | nil => simp [insertSorted]
  | cons y ys ih =>
    by_cases h1 : s < y
    · rw [insertSorted, if_pos h1]; simp
    · by_cases h2 : s = y
      · rw [insertSorted, if_neg h1, if_pos h2]
        subst h2; simp
      · rw [insertSorted, if_neg h1, if_neg h2]
        simp [ih]
        tauto

theorem insertSorted_sorted (s : String) (l : List String)
    (h : List.Sorted (· < ·) l) : List.Sorted (· < ·) (insertSorted s l) := by
  induction l with
  | nil => simp [insertSorted]
  | cons y ys ih =>
    rw [List.sorted_cons] at h
    by_cases h1 : s < y
    · rw [insertSorted, if_pos h1]
      rw [List.sorted_cons]
      refine ⟨?_, List.sorted_cons.mpr h⟩
      intro b hb
      rcases List.mem_cons.mp hb with hb | hb
      · subst hb; exact h1
      · exact lt_trans h1 (h.1 b hb)
    · by_cases h2 : s = y
      · rw [insertSorted, if_neg h1, if_pos h2]
        exact List.sorted_cons.mpr h
      · rw [insertSorted, if_neg h1, if_neg h2]
        rw [List.sorted_cons]
        constructor
        · intro b hb
          rcases (insertSorted_mem s b ys).mp hb with hb | hb
          · subst hb
            rcases lt_trichotomy b y with h3 | h3 | h3
            · exact absurd h3 h1
            · exact absurd h3 h2
            · exact h3
          · exact h.1 b hb
        · exact ih h.2

/-- The dictionary built by the first scan is strictly sorted. -/
theorem buildDictionary_sorted (arr : List (Option String)) :
    List.Sorted (· < ·) (buildDictionary arr) := by
  suffices h : ∀ acc : List String, List.Sorted (· < ·) acc →
      List.Sorted (· < ·)
        (arr.foldl (fun d v => match v with | some s => insertSorted s d | none => d) acc) by
    exact h [] (by simp)
  induction arr with
  | nil => intro acc ha; exact ha
  | cons v rest ih =>
    intro acc ha
    cases v with
    | none => exact ih acc ha
    | some s => exact ih (insertSorted s acc) (insertSorted_sorted s acc ha)

/-- Membership in the dictionary is exactly occurrence as a non-null input
value. -/
theorem buildDictionary_mem (arr : List (Option String)) (s : String) :
    s ∈ buildDictionary arr ↔ some s ∈ arr := by
  suffices h : ∀ acc : List String,
      (s ∈ arr.foldl (fun d v => match v with | some t => insertSorted t d | none => d) acc ↔
        s ∈ acc ∨ some s ∈ arr) by
    have := h []
    simpa [buildDictionary] using this
  induction arr with
  | nil => intro acc; simp
  | cons v rest ih =>
    intro acc
    cases v with
    | none =>
      simp only [List.foldl_cons]
      rw [ih acc]
      simp
    | some t =>
      simp only [List.foldl_cons]
      rw [ih (insertSorted t acc), insertSorted_mem]
      constructor
      · rintro ((h | h) | h)
        · subst h; simp
        · exact Or.inl h
        · simp [h]
      · rintro (h | h)
        · exact Or.inl (Or.inr h)
        · rcases List.mem_cons.mp h with h | h
          · exact Or.inl (Or.inl (Option.some.inj h))
          · exact Or.inr h

theorem dictIndex_lt_length (dict : List String) (s : String) (h : s ∈ dict) :
    dictIndex dict s < dict.length := by
  induction dict with
  | nil => cases h
  | cons x xs ih =>
    by_cases h1 : s = x
    · simp [dictIndex, h1]
    · rw [dictIndex, if_neg h1]
      have : s ∈ xs := by
        rcases List.mem_cons.mp h with h2 | h2
        · exact absurd h2 h1
        · exact h2
      simpa using ih this

theorem get?_dictIndex (dict : List String) (s : String) (h : s ∈ dict) :
    dict.get? (dictIndex dict s) = some s := by
  induction dict with
  | nil => cases h
  | cons x xs ih =>
    by_cases h1 : s = x
    · simp [dictIndex, h1]
    · rw [dictIndex, if_neg h1]
      have : s ∈ xs := by
        rcases List.mem_cons.mp h with h2 | h2
        · exact absurd h2 h1
        · exact h2
      simpa using ih this

/-- Decoding inverts encoding on dictionary members; NULL encodes to 0 and
decodes back to NULL. -/
theorem dictDecode_encodeVal (dict : List String) (v : Option String)
    (h : ∀ s, v = some s → s ∈ dict) :
    dictDecode dict (encodeVal dict v) = v := by
  cases v with
  | none => rfl
  | some s =>
    have hs := h s rfl
    simp only [encodeVal, dictDecode]
    rw [if_neg (by omega)]
    simpa using get?_dictIndex dict s hs

/-! ## Characterizing the encodings the builder produces -/

/-- The run list expanded back to one encoded id per row. -/
def expandRuns (runs : List (Nat × Nat)) : List Nat :=
  runs.foldr (fun p acc => List.replicate p.2 p.1 ++ acc) []

/-- Folding the batch stream into a builder `Encoding` seeded with a plain
encoding stays plain. -/
theorem encoding_foldl_plain (batches : List (Option String × Nat)) :
    ∀ p : Plain,
      batches.foldl (fun d b => d.pushAdditional b.1 b.2) (Encoding.Plain p) =
        Encoding.Plain (batches.foldl (fun q b => q.pushAdditional b.1 b.2) p) := by
  induction batches with
  | nil => intro p; rfl
  | cons b bs ih => intro p; exact ih (p.pushAdditional b.1 b.2)

/-- Folding the batch stream into a builder `Encoding` seeded with an RLE
encoding stays RLE. -/
theorem encoding_foldl_rle (batches : List (Option String × Nat)) :
    ∀ r : RLE,
      batches.foldl (fun d b => d.pushAdditional b.1 b.2) (Encoding.RLE r) =
        Encoding.RLE (batches.foldl (fun q b => q.pushAdditional b.1 b.2) r) := by
  induction batches with
  | nil => intro r; rfl
  | cons b bs ih => intro r; exact ih (r.pushAdditional b.1 b.2)

/-- The plain encoding the batch stream builds on top of a dictionary. -/
def plainFold (dict : List String) (batches : List (Option String × Nat)) : Plain :=
  batches.foldl (fun q b => q.pushAdditional b.1 b.2) (Plain.withDictionary dict)

/-- The RLE encoding the batch stream builds on top of a dictionary. -/
def rleFold (dict : List String) (batches : List (Option String × Nat)) : RLE :=
  batches.foldl (fun q b => q.pushAdditional b.1 b.2) (RLE.withDictionary dict)

theorem plain_foldl_dictionary (batches : List (Option String × Nat)) :
    ∀ p : Plain,
      (batches.foldl (fun q b => q.pushAdditional b.1 b.2) p).dictionary = p.dictionary := by
  induction batches with
  | nil => intro p; rfl
  | cons b bs ih =>
    intro p
    rw [List.foldl_cons, ih]
    rfl

theorem plain_foldl_ids (batches : List (Option String × Nat)) :
    ∀ p : Plain,
      (batches.foldl (fun q b => q.pushAdditional b.1 b.2) p).ids =
        p.ids ++ (expandBatches batches).map (encodeVal p.dictionary) := by
  induction batches with
  | nil => intro p; simp [expandBatches]
  | cons b bs ih =>
    intro p
    rw [List.foldl_cons, ih, expandBatches_cons]
    simp [Plain.pushAdditional, List.map_replicate]

theorem plainFold_dictionary (dict : List String) (batches : List (Option String × Nat)) :
    (plainFold dict batches).dictionary = dict :=
  plain_foldl_dictionary batches (Plain.withDictionary dict)

/-- The ids of the built plain encoding are exactly the encodings of the
expanded batch stream. -/
theorem plainFold_ids (dict : List String) (batches : List (Option String × Nat)) :
    (plainFold dict batches).ids = (expandBatches batches).map (encodeVal dict) := by
  rw [plainFold, plain_foldl_ids]
  rfl

theorem expandRuns_append_single (l : List (Nat × Nat)) (p : Nat × Nat) :
    expandRuns (l ++ [p]) = expandRuns l ++ List.replicate p.2 p.1 := by
  induction l with
  | nil => simp [expandRuns]
  | cons q l ihq => simp [expandRuns] at ihq ⊢; rw [ihq]

/-- One RLE push extends the expanded run list by `count` copies of the
resolved id (for any count; a zero count adds nothing). -/
theorem rle_push_expand (r : RLE) (v : Option String) (count : Nat) :
    expandRuns (r.pushAdditional v count).runs =
      expandRuns r.runs ++ List.replicate count (encodeVal r.dictionary v) := by
  rw [RLE.pushAdditional.eq_def]
  by_cases hc : count = 0
  · simp [hc]
  · rw [if_neg hc]
    rcases hlast : r.runs.getLast? with _ | ⟨lastId, lastCount⟩
    · have hnil : r.runs = [] := List.getLast?_eq_none_iff.mp hlast
      simp [hnil, expandRuns]
    · have hne : r.runs ≠ [] := by
        intro h; rw [h] at hlast; cases hlast
      have hsplit : r.runs.dropLast ++ [r.runs.getLast hne] = r.runs :=
        List.dropLast_append_getLast hne
      have hlast2 : r.runs.getLast hne = (lastId, lastCount) := by
        have := List.getLast?_eq_getLast r.runs hne
        rw [hlast] at this
        exact (Option.some.inj this).symm
      simp only
      by_cases hid : lastId = encodeVal r.dictionary v
      · rw [if_pos hid]
        rw [expandRuns_append_single]
        conv_rhs => rw [← hsplit, hlast2]
        rw [expandRuns_append_single]
        simp only [hid, List.replicate_add, List.append_assoc]
      · rw [if_neg hid]
        rw [expandRuns_append_single]

theorem rle_foldl_dictionary (batches : List (Option String × Nat)) :
    ∀ r : RLE,
      (batches.foldl (fun q b => q.pushAdditional b.1 b.2) r).dictionary = r.dictionary := by
  induction batches with
  | nil => intro r; rfl
  | cons b bs ih =>
    intro r
    rw [List.foldl_cons, ih]
    rw [RLE.pushAdditional.eq_def]
    by_cases hc : b.2 = 0
    · rw [if_pos hc]
    · rw [if_neg hc]

theorem rle_foldl_expand (batches : List (Option String × Nat)) :
    ∀ r : RLE,
      expandRuns (batches.foldl (fun q b => q.pushAdditional b.1 b.2) r).runs =
        expandRuns r.runs ++ (expandBatches batches).map (encodeVal r.dictionary) := by
  induction batches with
  | nil => intro r; simp [expandBatches]
  | cons b bs ih =>
    intro r
    rw [List.foldl_cons, ih, expandBatches_cons]
    have hd : (r.pushAdditional b.1 b.2).dictionary = r.dictionary := by
      rw [RLE.pushAdditional.eq_def]
      by_cases hc : b.2 = 0
      · rw [if_pos hc]
      · rw [if_neg hc]
    rw [hd, rle_push_expand]
    simp [List.map_replicate]

theorem rleFold_dictionary (dict : List String) (batches : List (Option String × Nat)) :
    (rleFold dict batches).dictionary = dict :=
  rle_foldl_dictionary batches (RLE.withDictionary dict)

/-- The expanded run list of the built RLE encoding is exactly the
encodings of the expanded batch stream: both encodings agree on the
per-row id sequence. -/
theorem rleFold_expand (dict : List String) (batches : List (Option String × Nat)) :
    expandRuns (rleFold dict batches).runs = (expandBatches batches).map (encodeVal dict) := by
  rw [rleFold, rle_foldl_expand]
  simp [RLE.withDictionary, expandRuns]

/-- The run walk agrees with indexing into the expanded run list. -/
theorem runIdAt_eq_getD (runs : List (Nat × Nat)) :
    ∀ row, runIdAt runs row = (expandRuns runs).getD row 0 := by
  induction runs with
  | nil => intro row; simp [runIdAt, expandRuns]
  | cons p rest ih =>
    intro row
    rcases p with ⟨id, c⟩
    have hexp : expandRuns ((id, c) :: rest) = List.replicate c id ++ expandRuns rest := rfl
    rw [hexp]
    by_cases h : row < c
    · rw [runIdAt, if_pos h]
      rw [List.getD_append _ _ _ _ (by simpa using h)]
      rw [List.getD_eq_getD_get?]
      simp [List.getElem?_replicate, h]
    · rw [runIdAt, if_neg h]
      rw [List.getD_append_right _ _ _ _ (by simpa using Nat.le_of_not_lt h)]
      rw [ih]
      simp

theorem rle_push_numRows (r : RLE) (v : Option String) (count : Nat) :
    (r.pushAdditional v count).numRows = r.numRows + count := by
  rw [RLE.pushAdditional.eq_def]
  by_cases hc : count = 0
  · rw [if_pos hc]; omega
  · rw [if_neg hc]

theorem rle_foldl_numRows (batches : List (Option String × Nat)) :
    ∀ r : RLE,
      (batches.foldl (fun q b => q.pushAdditional b.1 b.2) r).numRows =
        r.numRows + (expandBatches batches).length := by
  induction batches with
  | nil => intro r; simp [expandBatches]
  | cons b bs ih =>
    intro r
    rw [List.foldl_cons, ih, rle_push_numRows, expandBatches_cons]
    simp
    omega

/-- The rows of the built RLE encoding. -/
theorem rleFold_numRows (dict : List String) (batches : List (Option String × Nat)) :
    (rleFold dict batches).numRows = (expandBatches batches).length := by
  rw [rleFold, rle_foldl_numRows]
  simp [RLE.withDictionary]

/-! ## The cached column min/max -/

/-- One step of a naive scan maintaining the running lexicographic
minimum over optional values. -/
def stepMin (acc : Option String) (v : Option String) : Option String :=
  match v with
  | some s => minOpt acc s
  | none => acc

/-- One step of a naive scan maintaining the running lexicographic
maximum over optional values. -/
def stepMax (acc : Option String) (v : Option String) : Option String :=
  match v with
  | some s => maxOpt acc s
  | none => acc

theorem minOpt_idem (acc : Option String) (s : String) :
    minOpt (minOpt acc s) s = minOpt acc s := by
  cases acc with
  | none => simp [minOpt]
  | some m => simp [minOpt, min_assoc]

theorem maxOpt_idem (acc : Option String) (s : String) :
    maxOpt (maxOpt acc s) s = maxOpt acc s := by
  cases acc with
  | none => simp [maxOpt]
  | some m => simp [maxOpt, max_assoc]

theorem foldl_stepMin_replicate_some (c : Nat) :
    ∀ acc s, (List.replicate (c + 1) (some s)).foldl stepMin acc = minOpt acc s := by
  induction c with
  | zero => intro acc s; simp [stepMin]
  | succ c ih =>
    intro acc s
    rw [List.replicate_succ, List.foldl_cons, ih]
    exact minOpt_idem acc s

theorem foldl_stepMax_replicate_some (c : Nat) :
    ∀ acc s, (List.replicate (c + 1) (some s)).foldl stepMax acc = maxOpt acc s := by
  induction c with
  | zero => intro acc s; simp [stepMax]
  | succ c ih =>
    intro acc s
    rw [List.replicate_succ, List.foldl_cons, ih]
    exact maxOpt_idem acc s

theorem foldl_stepMin_replicate_none (c : Nat) (acc : Option String) :
    (List.replicate c (none : Option String)).foldl stepMin acc = acc := by
  induction c with
  | zero => rfl
  | succ c ih => rw [List.replicate_succ, List.foldl_cons]; exact ih

theorem foldl_stepMax_replicate_none (c : Nat) (acc : Option String) :
    (List.replicate c (none : Option String)).foldl stepMax acc = acc := by
  induction c with
  | zero => rfl
  | succ c ih => rw [List.replicate_succ, List.foldl_cons]; exact ih

/-- The plain cached minimum is the naive scan over the logical values. -/
theorem plain_foldl_colMin (batches : List (Option String × Nat))
    (hpos : ∀ b ∈ batches, 1 ≤ b.2) :
    ∀ p : Plain,
      (batches.foldl (fun q b => q.pushAdditional b.1 b.2) p).colMin =
        (expandBatches batches).foldl stepMin p.colMin := by
  induction batches with
  | nil => intro p; simp [expandBatches]
  | cons b bs ih =>
    intro p
    have hb : 1 ≤ b.2 := hpos b (List.mem_cons_self b bs)
    rw [List.foldl_cons, ih (fun c hc => hpos c (List.mem_cons_of_mem b hc)),
      expandBatches_cons, List.foldl_append]
    congr 1
    rcases b with ⟨v, c⟩
    cases v with
    | none =>
      simp only [Plain.pushAdditional]
      rw [foldl_stepMin_replicate_none]
    | some s =>
      obtain ⟨c', rfl⟩ : ∃ c', c = c' + 1 := ⟨c - 1, by omega⟩
      simp only [Plain.pushAdditional]
      rw [foldl_stepMin_replicate_some]
      simp

theorem plain_foldl_colMax (batches : List (Option String × Nat))
    (hpos : ∀ b ∈ batches, 1 ≤ b.2) :
    ∀ p : Plain,
      (batches.foldl (fun q b => q.pushAdditional b.1 b.2) p).colMax =
        (expandBatches batches).foldl stepMax p.colMax := by
  induction batches with
  | nil => intro p; simp [expandBatches]
  | cons b bs ih =>
    intro p
    have hb : 1 ≤ b.2 := hpos b (List.mem_cons_self b bs)
    rw [List.foldl_cons, ih (fun c hc => hpos c (List.mem_cons_of_mem b hc)),
      expandBatches_cons, List.foldl_append]
    congr 1
    rcases b with ⟨v, c⟩
    cases v with
    | none =>
      simp only [Plain.pushAdditional]
      rw [foldl_stepMax_replicate_none]
    | some s =>
      obtain ⟨c', rfl⟩ : ∃ c', c = c' + 1 := ⟨c - 1, by omega⟩
      simp only [Plain.pushAdditional]
      rw [foldl_stepMax_replicate_some]
      simp

/-- The RLE cached minimum follows the same scan. -/
theorem rle_foldl_colMin (batches : List (Option String × Nat))
    (hpos : ∀ b ∈ batches, 1 ≤ b.2) :
    ∀ r : RLE,
      (batches.foldl (fun q b => q.pushAdditional b.1 b.2) r).colMin =
        (expandBatches batches).foldl stepMin r.colMin := by
  induction batches with
  | nil => intro r; simp [expandBatches]
  | cons b bs ih =>
    intro r
    have hb : 1 ≤ b.2 := hpos b (List.mem_cons_self b bs)
    rw [List.foldl_cons, ih (fun c hc => hpos c (List.mem_cons_of_mem b hc)),
      expandBatches_cons, List.foldl_append]
    congr 1
    rcases b with ⟨v, c⟩
    rw [RLE.pushAdditional.eq_def]
    rw [if_neg (by omega : ¬ c = 0)]
    cases v with
    | none =>
      rw [foldl_stepMin_replicate_none]
    | some s =>
      obtain ⟨c', rfl⟩ : ∃ c', c = c' + 1 := ⟨c - 1, by omega⟩
      rw [foldl_stepMin_replicate_some]

theorem rle_foldl_colMax (batches : List (Option String × Nat))
    (hpos : ∀ b ∈ batches, 1 ≤ b.2) :
    ∀ r : RLE,
      (batches.foldl (fun q b => q.pushAdditional b.1 b.2) r).colMax =
        (expandBatches batches).foldl stepMax r.colMax := by
  induction batches with
  | nil => intro r; simp [expandBatches]
  | cons b bs ih =>
    intro r
    have hb : 1 ≤ b.2 := hpos b (List.mem_cons_self b bs)
    rw [List.foldl_cons, ih (fun c hc => hpos c (List.mem_cons_of_mem b hc)),
      expandBatches_cons, List.foldl_append]
    congr 1
    rcases b with ⟨v, c⟩
    rw [RLE.pushAdditional.eq_def]
    rw [if_neg (by omega : ¬ c = 0)]
    cases v with
    | none =>
      rw [foldl_stepMax_replicate_none]
    | some s =>
      obtain ⟨c', rfl⟩ : ∃ c', c = c' + 1 := ⟨c - 1, by omega⟩
      rw [foldl_stepMax_replicate_some]

/-! ## The built columns, unfolded -/

/-- The batches the second scan produces expand back to the input. -/
theorem expandBatches_rleBatches (a : Option String) (rest : List (Option String)) :
    expandBatches (rleBatches a rest) = a :: rest := by
  rw [rleBatches, expandBatches_buildBatches]
  rfl

theorem rleBatches_counts_pos (a : Option String) (rest : List (Option String)) :
    ∀ b ∈ rleBatches a rest, 1 ≤ b.2 :=
  buildBatches_counts_pos rest a 1 le_rfl

theorem fromOptionSlice_cons (a : Option String) (rest : List (Option String)) :
    StringEncoding.fromOptionSlice (a :: rest) =
      some (if (buildDictionary (a :: rest)).length >
          TEMP_CARDINALITY_DICTIONARY_ENCODING_LIMIT then
        StringEncoding.Dictionary (plainFold (buildDictionary (a :: rest)) (rleBatches a rest))
      else
        StringEncoding.RLEDictionary (rleFold (buildDictionary (a :: rest)) (rleBatches a rest))) := by
  rw [StringEncoding.fromOptionSlice]
  by_cases h : (buildDictionary (a :: rest)).length >
      TEMP_CARDINALITY_DICTIONARY_ENCODING_LIMIT
  · simp only [if_pos h]
    rw [encoding_foldl_plain]
    rfl
  · simp only [if_neg h]
    rw [encoding_foldl_rle]
    rfl

theorem built_cons (a : Option String) (rest : List (Option String)) :
    built (a :: rest) =
      if (buildDictionary (a :: rest)).length >
          TEMP_CARDINALITY_DICTIONARY_ENCODING_LIMIT then
        StringEncoding.Dictionary (plainFold (buildDictionary (a :: rest)) (rleBatches a rest))
      else
        StringEncoding.RLEDictionary (rleFold (buildDictionary (a :: rest)) (rleBatches a rest)) := by
  rw [built, fromOptionSlice_cons]
  rfl

theorem builtForcedPlain_cons (a : Option String) (rest : List (Option String)) :
    builtForcedPlain (a :: rest) =
      some (StringEncoding.Dictionary
        (plainFold (buildDictionary (a :: rest)) (rleBatches a rest))) := by
  have h := encoding_foldl_plain (rleBatches a rest)
    (Plain.withDictionary (buildDictionary (a :: rest)))
  simp only [builtForcedPlain, h]
  rfl

theorem builtForcedRLE_cons (a : Option String) (rest : List (Option String)) :
    builtForcedRLE (a :: rest) =
      some (StringEncoding.RLEDictionary
        (rleFold (buildDictionary (a :: rest)) (rleBatches a rest))) := by
  have h := encoding_foldl_rle (rleBatches a rest)
    (RLE.withDictionary (buildDictionary (a :: rest)))
  simp only [builtForcedRLE, h]
  rfl

/-! ## Logical value round-trip -/

theorem getD_map_encode (arr : List (Option String)) (dict : List String)
    (r : Nat) (h : r < arr.length) :
    (arr.map (encodeVal dict)).getD r 0 = encodeVal dict (arr.getD r none) := by
  rcases hx : arr.get? r with _ | v
  · rw [List.get?_eq_get h] at hx
    cases hx
  · rw [List.getD_eq_getD_get?, List.getD_eq_getD_get?, List.get?_map, hx]
    rfl

theorem getD_mem (arr : List (Option String)) (r : Nat) (h : r < arr.length) :
    arr.getD r none ∈ arr := by
  rw [List.getD_eq_getD_get?, List.get?_eq_get h]
  exact List.get_mem arr r h

/-- Decoding the id stored for a row recovers the row's logical value,
provided the dictionary holds every non-null input value. -/
theorem decode_row_id (arr : List (Option String)) (dict : List String)
    (hdict : ∀ s, some s ∈ arr → s ∈ dict) (r : Nat) (h : r < arr.length) :
    dictDecode dict ((arr.map (encodeVal dict)).getD r 0) = arr.getD r none := by
  rw [getD_map_encode arr dict r h]
  apply dictDecode_encodeVal
  intro s hs
  exact hdict s (hs ▸ getD_mem arr r h)

/-- The `Value` the facade wraps an optional string into. -/
def valueOfOpt : Option String → Value
  | some s => Value.String s
  | none => Value.Null

/-- The plain ids of the built column are the encodings of the input. -/
theorem built_plain_ids (a : Option String) (rest : List (Option String)) :
    (plainFold (buildDictionary (a :: rest)) (rleBatches a rest)).ids =
      (a :: rest).map (encodeVal (buildDictionary (a :: rest))) := by
  rw [plainFold_ids, expandBatches_rleBatches]

/-- The expanded runs of the built column are the encodings of the input. -/
theorem built_rle_expand (a : Option String) (rest : List (Option String)) :
    expandRuns (rleFold (buildDictionary (a :: rest)) (rleBatches a rest)).runs =
      (a :: rest).map (encodeVal (buildDictionary (a :: rest))) := by
  rw [rleFold_expand, expandBatches_rleBatches]

/-- **C1.** For every column constructed from an input sequence of optional
strings and every row id `r` in `[0, N)`, `value(r)` returns the string at
position `r` of the original input, or NULL when that input position was
NULL. -/
theorem C1_value_round_trip (arr : List (Option String)) (r : Nat)
    (h1 : arr ≠ []) (h2 : r < arr.length) :
    (built arr).value r = valueOfOpt (arr.getD r none) := by
  rcases arr with _ | ⟨a, rest⟩
  · exact absurd rfl h1
  have hdict : ∀ s, some s ∈ a :: rest → s ∈ buildDictionary (a :: rest) :=
    fun s hs => (buildDictionary_mem (a :: rest) s).mpr hs
  rw [built_cons]
  by_cases h : (buildDictionary (a :: rest)).length >
      TEMP_CARDINALITY_DICTIONARY_ENCODING_LIMIT
  · rw [if_pos h]
    show (match (plainFold _ _).value r with
      | some v => Value.String v
      | none => Value.Null) = _
    rw [Plain.value, plainFold_dictionary, built_plain_ids,
      decode_row_id (a :: rest) _ hdict r h2]
    cases (a :: rest).getD r none <;> rfl
  · rw [if_neg h]
    show (match (rleFold _ _).value r with
      | some v => Value.String v
      | none => Value.Null) = _
    rw [RLE.value, rleFold_dictionary, runIdAt_eq_getD, built_rle_expand,
      decode_row_id (a :: rest) _ hdict r h2]
    cases (a :: rest).getD r none <;> rfl

/-- Witness for C1 on the concrete input `["a", NULL]` at row 1. -/
theorem C1_value_round_trip_witness :
    (built [some "a", none]).value 1 = valueOfOpt ([some "a", none].getD 1 none) :=
  C1_value_round_trip [some "a", none] 1 (by decide) (by decide)

/-- **C2.** For every non-empty input, the builder's second scan emits
push_additional batches that are exactly the run-length encoding of the
input: every batch count is at least 1, the counts sum to N, no two
consecutive batches carry an equal value (with NULL comparing equal to
NULL, so consecutive NULL rows merge), and the batches expand back to the
input. -/
theorem C2_second_scan_is_rle (a : Option String) (rest : List (Option String)) :
    (rleBatches a rest).all (fun b => decide (1 ≤ b.2)) = true ∧
    ((rleBatches a rest).map Prod.snd).sum = (a :: rest).length ∧
    List.Chain' (fun x y : Option String × Nat => x.1 ≠ y.1) (rleBatches a rest) ∧
    expandBatches (rleBatches a rest) = a :: rest := by
  refine ⟨?_, ?_, buildBatches_chain rest a 1, expandBatches_rleBatches a rest⟩
  · rw [List.all_eq_true]
    intro b hb
    simpa using rleBatches_counts_pos a rest b hb
  · rw [← expandBatches_length, expandBatches_rleBatches]

/-! ## Encoding selection (cardinality threshold) -/

/-- The number of distinct non-null strings in the input, stated
independently of the dictionary construction. -/
def distinctNonNull (arr : List (Option String)) : Nat :=
  (arr.filterMap id).dedup.length

/-- The dictionary's size is the number of distinct non-null input
strings. -/
theorem buildDictionary_length (arr : List (Option String)) :
    (buildDictionary arr).length = distinctNonNull arr := by
  have h1 : (buildDictionary arr).Nodup := (buildDictionary_sorted arr).nodup
  have h2 : (arr.filterMap id).dedup.Nodup := (arr.filterMap id).nodup_dedup
  have hperm : (buildDictionary arr).Perm (arr.filterMap id).dedup := by
    refine (List.perm_ext_iff_of_nodup h1 h2).mpr ?_
    intro s
    rw [buildDictionary_mem, List.mem_dedup]
    simp
  exact hperm.length_eq

def StringEncoding.isPlain : StringEncoding → Bool
  | .Dictionary _ => true
  | .RLEDictionary _ => false

def StringEncoding.isRLE : StringEncoding → Bool
  | .Dictionary _ => false
  | .RLEDictionary _ => true

/-- **C3.** For every (constructible, i.e. non-empty) input, the constructed
column uses the plain dictionary encoding iff the number of distinct
non-null strings exceeds 100 000, and the run-length encoding otherwise. -/
theorem C3_encoding_selection (arr : List (Option String)) (h1 : arr ≠ []) :
    ((built arr).isPlain = true ↔
      TEMP_CARDINALITY_DICTIONARY_ENCODING_LIMIT < distinctNonNull arr) ∧
    ((built arr).isRLE = true ↔
      distinctNonNull arr ≤ TEMP_CARDINALITY_DICTIONARY_ENCODING_LIMIT) := by
  rcases arr with _ | ⟨a, rest⟩
  · exact absurd rfl h1
  rw [built_cons, ← buildDictionary_length (a :: rest)]
  by_cases h : (buildDictionary (a :: rest)).length >
      TEMP_CARDINALITY_DICTIONARY_ENCODING_LIMIT
  · rw [if_pos h]
    constructor
    · simp [StringEncoding.isPlain, h]
    · simp [StringEncoding.isRLE]
      omega
  · rw [if_neg h]
    constructor
    · simp [StringEncoding.isPlain]
      omega
    · simp [StringEncoding.isRLE]
      omega

/-- Witness for C3 on the concrete input `["a"]` (1 distinct value, so the
run-length side holds and the plain side is refuted). -/
theorem C3_encoding_selection_witness :
    ((built [some "a"]).isPlain = true ↔
      TEMP_CARDINALITY_DICTIONARY_ENCODING_LIMIT < distinctNonNull [some "a"]) ∧
    ((built [some "a"]).isRLE = true ↔
      distinctNonNull [some "a"] ≤ TEMP_CARDINALITY_DICTIONARY_ENCODING_LIMIT) :=
  C3_encoding_selection [some "a"] (by decide)

/-- **C4 (code bug).** The spec promises that an empty input produces an
empty column, but both slice construction paths index `arr[0]`
unconditionally, which panics on an empty slice (modelled by `none`). -/
theorem C4_empty_input_panics :
    StringEncoding.fromOptionSlice [] = none ∧
    StringEncoding.fromStrSlice [] = none :=
  ⟨rfl, rfl⟩

/-! ## Facade dispatch: group_row_ids and decode_id -/

/-- **C6.** `has_pre_computed_row_id_sets()` is true iff the column is
run-length encoded, and `group_row_ids()` returns the borrowed (left)
variant exactly for RLE columns and the owned (right) variant exactly for
plain columns. -/
theorem C6_group_row_ids_variant (col : StringEncoding) :
    (col.hasPreComputedRowIdSets = true ↔ col.isRLE = true) ∧
    ((∃ sets, col.groupRowIds = Either.left sets) ↔ col.isRLE = true) ∧
    ((∃ sets, col.groupRowIds = Either.right sets) ↔ col.isPlain = true) := by
  cases col with
  | RLEDictionary enc =>
    refine ⟨by simp [StringEncoding.hasPreComputedRowIdSets, StringEncoding.isRLE], ?_, ?_⟩
    · simp [StringEncoding.groupRowIds, StringEncoding.isRLE]
    · simp [StringEncoding.groupRowIds, StringEncoding.isPlain]
  | Dictionary enc =>
    refine ⟨by simp [StringEncoding.hasPreComputedRowIdSets, StringEncoding.isRLE], ?_, ?_⟩
    · simp [StringEncoding.groupRowIds, StringEncoding.isRLE]
    · simp [StringEncoding.groupRowIds, StringEncoding.isPlain]

/-- **C8 counterexample.** The claim says an out-of-range encoded id yields
`None`, distinguishable from NULL. On the column built from `["a"]`
(dictionary size 1), `decode_id(5)` returns the facade's `Value::Null`,
the very same value as `decode_id(0)`: the facade collapses the inner
`None` into NULL, so out-of-range is not distinguishable. -/
theorem C8_out_of_range_is_null :
    (built [some "a"]).decodeId 5 = Value.Null ∧
    (built [some "a"]).decodeId 0 = Value.Null ∧
    (built [some "a"]).decodeId 5 = (built [some "a"]).decodeId 0 := by
  refine ⟨?_, ?_, ?_⟩ <;> rfl

/-- **C8 (amended).** `decode_id(e)` returns the dictionary string at
1-based position `e` when `1 ≤ e ≤ D`, NULL when `e = 0`, and NULL again
(not a distinguishable `None`) when `e > D`. -/
theorem C8_decode_id_amended (arr : List (Option String)) (e : Nat) (h1 : arr ≠ []) :
    (built arr).decodeId e = valueOfOpt (dictDecode (buildDictionary arr) e) ∧
    (built arr).decodeId 0 = Value.Null ∧
    ((buildDictionary arr).length < e → (built arr).decodeId e = Value.Null) := by
  rcases arr with _ | ⟨a, rest⟩
  · exact absurd rfl h1
  have key : ∀ k, (built (a :: rest)).decodeId k =
      valueOfOpt (dictDecode (buildDictionary (a :: rest)) k) := by
    intro k
    rw [built_cons]
    by_cases h : (buildDictionary (a :: rest)).length >
        TEMP_CARDINALITY_DICTIONARY_ENCODING_LIMIT
    · rw [if_pos h]
      show (match (plainFold _ _).decodeId k with
        | some v => Value.String v
        | none => Value.Null) = _
      rw [Plain.decodeId, plainFold_dictionary]
      cases dictDecode (buildDictionary (a :: rest)) k <;> rfl
    · rw [if_neg h]
      show (match (rleFold _ _).decodeId k with
        | some v => Value.String v
        | none => Value.Null) = _
      rw [RLE.decodeId, rleFold_dictionary]
      cases dictDecode (buildDictionary (a :: rest)) k <;> rfl
  refine ⟨key e, ?_, ?_⟩
  · rw [key 0]; rfl
  · intro hgt
    rw [key e, dictDecode, if_neg (by omega)]
    rw [List.get?_eq_none.mpr (by omega)]
    rfl

/-- Witness for the amended C8 on `["a"]` with the in-range id 1. -/
theorem C8_decode_id_amended_witness :
    (built [some "a"]).decodeId 1 = valueOfOpt (dictDecode (buildDictionary [some "a"]) 1) :=
  (C8_decode_id_amended [some "a"] 1 (by decide)).1

/-! ## The cached column range is never half-populated -/

theorem foldl_stepMin_eq_none (l : List (Option String)) :
    ∀ acc, (l.foldl stepMin acc = none ↔ acc = none ∧ l.all (fun v => v.isNone) = true) := by
  induction l with
  | nil => intro acc; simp
  | cons v l ih =>
    intro acc
    rw [List.foldl_cons, ih (stepMin acc v)]
    have hstep : stepMin acc v = none ↔ acc = none ∧ v.isNone = true := by
      cases v with
      | none => simp [stepMin]
      | some s =>
        cases acc with
        | none => simp [stepMin, minOpt]
        | some m => simp [stepMin, minOpt]
    rw [hstep]
    simp [and_assoc]

theorem foldl_stepMax_eq_none (l : List (Option String)) :
    ∀ acc, (l.foldl stepMax acc = none ↔ acc = none ∧ l.all (fun v => v.isNone) = true) := by
  induction l with
  | nil => intro acc; simp
  | cons v l ih =>
    intro acc
    rw [List.foldl_cons, ih (stepMax acc v)]
    have hstep : stepMax acc v = none ↔ acc = none ∧ v.isNone = true := by
      cases v with
      | none => simp [stepMax]
      | some s =>
        cases acc with
        | none => simp [stepMax, maxOpt]
        | some m => simp [stepMax, maxOpt]
    rw [hstep]
    simp [and_assoc]

/-- The encoding-level cached min, surfaced through the facade. -/
def StringEncoding.columnMinCached : StringEncoding → Option String
  | .RLEDictionary enc => enc.columnMin
  | .Dictionary enc => enc.columnMin

/-- The encoding-level cached max, surfaced through the facade. -/
def StringEncoding.columnMaxCached : StringEncoding → Option String
  | .RLEDictionary enc => enc.columnMax
  | .Dictionary enc => enc.columnMax

theorem built_columnMinCached (a : Option String) (rest : List (Option String)) :
    (built (a :: rest)).columnMinCached = (a :: rest).foldl stepMin none := by
  rw [built_cons]
  by_cases h : (buildDictionary (a :: rest)).length >
      TEMP_CARDINALITY_DICTIONARY_ENCODING_LIMIT
  · rw [if_pos h]
    show (plainFold _ _).colMin = _
    rw [plainFold, plain_foldl_colMin _ (rleBatches_counts_pos a rest),
      expandBatches_rleBatches]
    rfl
  · rw [if_neg h]
    show (rleFold _ _).colMin = _
    rw [rleFold, rle_foldl_colMin _ (rleBatches_counts_pos a rest),
      expandBatches_rleBatches]
    rfl

theorem built_columnMaxCached (a : Option String) (rest : List (Option String)) :
    (built (a :: rest)).columnMaxCached = (a :: rest).foldl stepMax none := by
  rw [built_cons]
  by_cases h : (buildDictionary (a :: rest)).length >
      TEMP_CARDINALITY_DICTIONARY_ENCODING_LIMIT
  · rw [if_pos h]
    show (plainFold _ _).colMax = _
    rw [plainFold, plain_foldl_colMax _ (rleBatches_counts_pos a rest),
      expandBatches_rleBatches]
    rfl
  · rw [if_neg h]
    show (rleFold _ _).colMax = _
    rw [rleFold, rle_foldl_colMax _ (rleBatches_counts_pos a rest),
      expandBatches_rleBatches]
    rfl

/-- **C9.** On every constructed column the cached min and max are both
present or both absent (both absent exactly when every row is NULL), so the
`column_range` panic branch on a half-populated pair is unreachable. -/
theorem C9_column_range_never_panics (arr : List (Option String)) (h1 : arr ≠ []) :
    ((built arr).columnMinCached = none ↔ (built arr).columnMaxCached = none) ∧
    ((built arr).columnMinCached = none ↔ arr.all (fun v => v.isNone) = true) ∧
    (built arr).columnRange ≠ ColumnRangeResult.invalid := by
  rcases arr with _ | ⟨a, rest⟩
  · exact absurd rfl h1
  have hmin := built_columnMinCached a rest
  have hmax := built_columnMaxCached a rest
  have hiff : (built (a :: rest)).columnMinCached = none ↔
      (built (a :: rest)).columnMaxCached = none := by
    rw [hmin, hmax, foldl_stepMin_eq_none, foldl_stepMax_eq_none]
  refine ⟨hiff, ?_, ?_⟩
  · rw [hmin, foldl_stepMin_eq_none]
    simp
  · intro hbad
    cases hcol : built (a :: rest) with
    | RLEDictionary enc =>
      rw [hcol] at hbad hiff
      rw [StringEncoding.columnRange] at hbad
      rcases hmn : enc.columnMin with _ | mn <;> rcases hmx : enc.columnMax with _ | mx
      · rw [hmn, hmx] at hbad; cases hbad
      · rw [StringEncoding.columnMinCached, StringEncoding.columnMaxCached] at hiff
        rw [hmn, hmx] at hiff
        simp at hiff
      · rw [StringEncoding.columnMinCached, StringEncoding.columnMaxCached] at hiff
        rw [hmn, hmx] at hiff
        simp at hiff
      · rw [hmn, hmx] at hbad; cases hbad
    | Dictionary enc =>
      rw [hcol] at hbad hiff
      rw [StringEncoding.columnRange] at hbad
      rcases hmn : enc.columnMin with _ | mn <;> rcases hmx : enc.columnMax with _ | mx
      · rw [hmn, hmx] at hbad; cases hbad
      · rw [StringEncoding.columnMinCached, StringEncoding.columnMaxCached] at hiff
        rw [hmn, hmx] at hiff
        simp at hiff
      · rw [StringEncoding.columnMinCached, StringEncoding.columnMaxCached] at hiff
        rw [hmn, hmx] at hiff
        simp at hiff
      · rw [hmn, hmx] at hbad; cases hbad

/-- Witness for C9 on `["x", NULL]`. -/
theorem C9_column_range_never_panics_witness :
    ((built [some "x", none]).columnMinCached = none ↔
      (built [some "x", none]).columnMaxCached = none) ∧
    ((built [some "x", none]).columnMinCached = none ↔
      [some "x", none].all (fun v => v.isNone) = true) ∧
    (built [some "x", none]).columnRange ≠ ColumnRangeResult.invalid :=
  C9_column_range_never_panics [some "x", none] (by decide)

/-! ## The non-null construction path -/

theorem buildBatchesStr_map (rest : List String) :
    ∀ (prev : String) (count : Nat),
      (buildBatchesStr prev count rest).map (fun b => ((some b.1 : Option String), b.2)) =
        buildBatches (some prev) count (rest.map some) := by
  induction rest with
  | nil => intro prev count; rfl
  | cons next rest ih =>
    intro prev count
    rw [List.map_cons]
    by_cases h : prev = next
    · rw [buildBatchesStr, if_pos h, buildBatches, if_pos (congrArg some h), ih]
    · rw [buildBatchesStr, if_neg h, buildBatches,
        if_neg (fun hc => h (Option.some.inj hc))]
      rw [List.map_cons, ih]

/-- The `&[&str]` construction path is the `&[Option<&str>]` path applied
to the all-non-null input: same dictionary, same batch stream. -/
theorem fromStrSlice_eq_fromOptionSlice (arr : List String) :
    StringEncoding.fromStrSlice arr = StringEncoding.fromOptionSlice (arr.map some) := by
  cases arr with
  | nil => rfl
  | cons a rest =>
    have hdict : (a :: rest).foldl (fun d s => insertSorted s d) [] =
        buildDictionary ((a :: rest).map some) := by
      rw [buildDictionary, List.foldl_map]
    have hfold : ∀ init : Encoding,
        (buildBatchesStr a 1 rest).foldl (fun d b => d.pushAdditional (some b.1) b.2) init =
          (rleBatches (some a) (rest.map some)).foldl (fun d b => d.pushAdditional b.1 b.2) init := by
      intro init
      rw [rleBatches, ← buildBatchesStr_map, List.foldl_map]
    simp only [StringEncoding.fromStrSlice, StringEncoding.fromOptionSlice, List.map_cons]
    rw [← List.map_cons some a rest, hdict, hfold]

theorem builtStr_eq_built (arr : List String) :
    builtStr arr = built (arr.map some) := by
  rw [builtStr, built, fromStrSlice_eq_fromOptionSlice]

theorem getD_setUnionAt_ne (l : List RowIDs) (i j : Nat) (s : RowIDs) (h : j ≠ i) :
    (setUnionAt l i s).getD j ∅ = l.getD j ∅ := by
  rw [setUnionAt]
  rw [List.getD_eq_getD_get?, List.get?_eq_getElem?, List.getElem?_set_ne (by omega)]
  rw [List.getD_eq_getD_get?, List.get?_eq_getElem?]

/-- Pushing only non-null batches never touches the NULL entry of the
inverted index. -/
theorem rle_foldl_zero_entry (batches : List (Option String × Nat)) :
    (∀ b ∈ batches, b.1 ≠ none) →
    ∀ r : RLE,
      (batches.foldl (fun q b => q.pushAdditional b.1 b.2) r).rowIdsById.getD 0 ∅ =
        r.rowIdsById.getD 0 ∅ := by
  induction batches with
  | nil => intro _ r; rfl
  | cons b bs ih =>
    intro hns r
    rw [List.foldl_cons, ih (fun c hc => hns c (List.mem_cons_of_mem b hc))]
    rcases b with ⟨v, c⟩
    rw [RLE.pushAdditional.eq_def]
    by_cases hc : c = 0
    · rw [if_pos hc]
    · rw [if_neg hc]
      cases v with
      | none => exact absurd rfl (hns (none, c) (List.mem_cons_self _ _))
      | some s =>
        exact getD_setUnionAt_ne _ _ _ _ (by simp [encodeVal])

/-- **C10.** Every column built from a non-empty slice of non-null strings
has `contains_null() = false` and `has_any_non_null_value() = true`: that
path only pushes non-null batches and never assigns encoded id 0. -/
theorem C10_str_path_no_nulls (arr : List String) (h1 : arr ≠ []) :
    (builtStr arr).containsNull = false ∧
    (builtStr arr).hasAnyNonNullValue = true := by
  rcases arr with _ | ⟨a, rest⟩
  · exact absurd rfl h1
  rw [builtStr_eq_built, List.map_cons, built_cons]
  have hzero : ∀ id ∈ ((some a :: rest.map some).map
      (encodeVal (buildDictionary (some a :: rest.map some)))), id ≠ 0 := by
    intro id hid
    rcases List.mem_map.mp hid with ⟨v, hv, hvid⟩
    rcases List.mem_cons.mp hv with hv1 | hv1
    · subst hv1; simp [encodeVal] at hvid; omega
    · rcases List.mem_map.mp hv1 with ⟨s, _, hs⟩
      subst hs; simp [encodeVal] at hvid; omega
  by_cases h : (buildDictionary (some a :: rest.map some)).length >
      TEMP_CARDINALITY_DICTIONARY_ENCODING_LIMIT
  · rw [if_pos h]
    constructor
    · show (plainFold _ _).ids.contains 0 = false
      rw [built_plain_ids]
      simpa using fun hmem => (hzero 0 hmem) rfl
    · show (Plain.hasAnyNonNullValue _) = true
      rw [Plain.hasAnyNonNullValue]
      have hids := built_plain_ids (some a) (rest.map some)
      have hcount : (plainFold (buildDictionary (some a :: rest.map some))
          (rleBatches (some a) (rest.map some))).ids.count 0 = 0 := by
        rw [hids]
        exact List.count_eq_zero.mpr (fun hmem => (hzero 0 hmem) rfl)
      have hlen : 1 ≤ (plainFold (buildDictionary (some a :: rest.map some))
          (rleBatches (some a) (rest.map some))).ids.length := by
        rw [hids]
        simp
      simp only [hcount]
      simp
      omega
  · rw [if_neg h]
    have hns : ∀ b ∈ rleBatches (some a) (rest.map some), b.1 ≠ none := by
      intro b hb hbn
      have hmem := batch_val_mem_expand _ (rleBatches_counts_pos _ _) b hb
      rw [expandBatches_rleBatches, hbn] at hmem
      rcases List.mem_cons.mp hmem with hh | hh
      · cases hh
      · rcases List.mem_map.mp hh with ⟨s, _, hs⟩
        cases hs
    have hzentry : (rleFold (buildDictionary (some a :: rest.map some))
        (rleBatches (some a) (rest.map some))).rowIdsById.getD 0 ∅ = ∅ := by
      rw [rleFold, rle_foldl_zero_entry _ hns]
      rw [RLE.withDictionary]
      simp
    constructor
    · show RLE.containsNull _ = false
      rw [RLE.containsNull, hzentry]
      simp
    · show (RLE.hasAnyNonNullValue _) = true
      rw [RLE.hasAnyNonNullValue, hzentry]
      have hn := rleFold_numRows (buildDictionary (some a :: rest.map some))
        (rleBatches (some a) (rest.map some))
      rw [expandBatches_rleBatches] at hn
      rw [hn]
      simp

/-- Witness for C10 on `["p", "p", "q"]`. -/
theorem C10_str_path_no_nulls_witness :
    (builtStr ["p", "p", "q"]).containsNull = false ∧
    (builtStr ["p", "p", "q"]).hasAnyNonNullValue = true :=
  C10_str_path_no_nulls ["p", "p", "q"] (by decide)

/-! ## The RLE inverted index -/

theorem getD_setUnionAt_self (l : List RowIDs) (i : Nat) (s : RowIDs)
    (h : i < l.length) : (setUnionAt l i s).getD i ∅ = l.getD i ∅ ∪ s := by
  rw [setUnionAt, List.getD_eq_getD_get?, List.get?_eq_getElem?,
    List.getElem?_set_self (by simpa using h)]
  rfl

/-- Invariant 3 of the spec: each entry of `row_ids_by_id` holds exactly the
rows whose (expanded) encoded id is that entry's id, together with the
bookkeeping that makes it maintainable: the index has one entry per id and
the row counter equals the expanded length. -/
def rleIndexOk (r : RLE) : Prop :=
  r.rowIdsById.length = r.dictionary.length + 1 ∧
  r.numRows = (expandRuns r.runs).length ∧
  ∀ e, r.rowIdsById.getD e ∅ =
    (Finset.range r.numRows).filter
      (fun row => (expandRuns r.runs).getD row 0 = e)

theorem rleIndexOk_withDictionary (dict : List String) :
    rleIndexOk (RLE.withDictionary dict) := by
  refine ⟨by simp [RLE.withDictionary], by simp [RLE.withDictionary, expandRuns], ?_⟩
  intro e
  rw [RLE.withDictionary]
  simp only [expandRuns]
  rw [Finset.range_zero, Finset.filter_empty]
  rcases Nat.lt_or_ge e (dict.length + 1) with h | h
  · rw [List.getD_eq_getD_get?, List.get?_eq_getElem?]
    simp [List.getElem?_replicate, h]
  · rw [List.getD_eq_getD_get?, List.get?_eq_getElem?]
    rw [List.getElem?_eq_none (by simpa using h)]
    rfl

theorem filter_range_append_replicate (L : List Nat) (id c e : Nat) :
    (Finset.range (L.length + c)).filter
        (fun row => (L ++ List.replicate c id).getD row 0 = e) =
      ((Finset.range L.length).filter (fun row => L.getD row 0 = e)) ∪
        (if e = id then Finset.Ico L.length (L.length + c) else ∅) := by
  by_cases he : e = id
  · subst he
    rw [if_pos rfl]
    ext row
    simp only [Finset.mem_filter, Finset.mem_range, Finset.mem_union, Finset.mem_Ico]
    constructor
    · rintro ⟨hlt, hval⟩
      rcases Nat.lt_or_ge row L.length with h | h
      · left
        refine ⟨h, ?_⟩
        rw [List.getD_append _ _ _ _ h] at hval
        exact hval
      · right
        exact ⟨h, hlt⟩
    · rintro (⟨h1, hval⟩ | ⟨h1, h2⟩)
      · refine ⟨by omega, ?_⟩
        rw [List.getD_append _ _ _ _ h1]
        exact hval
      · refine ⟨h2, ?_⟩
        rw [List.getD_append_right _ _ _ _ h1]
        rw [List.getD_eq_getD_get?, List.get?_eq_getElem?, List.getElem?_replicate,
          if_pos (by omega)]
        rfl
  · rw [if_neg he, Finset.union_empty]
    ext row
    simp only [Finset.mem_filter, Finset.mem_range]
    constructor
    · rintro ⟨hlt, hval⟩
      rcases Nat.lt_or_ge row L.length with h | h
      · refine ⟨h, ?_⟩
        rw [List.getD_append _ _ _ _ h] at hval
        exact hval
      · exfalso
        rw [List.getD_append_right _ _ _ _ h] at hval
        rw [List.getD_eq_getD_get?, List.get?_eq_getElem?, List.getElem?_replicate,
          if_pos (by omega)] at hval
        simp at hval
        exact he hval.symm
    · rintro ⟨h1, hval⟩
      refine ⟨by omega, ?_⟩
      rw [List.getD_append _ _ _ _ h1]
      exact hval

theorem rle_push_dictionary (r : RLE) (v : Option String) (c : Nat) :
    (r.pushAdditional v c).dictionary = r.dictionary := by
  rw [RLE.pushAdditional.eq_def]
  by_cases hc : c = 0
  · rw [if_pos hc]
  · rw [if_neg hc]

theorem rleIndexOk_push (r : RLE) (v : Option String) (c : Nat)
    (hok : rleIndexOk r) (hid : encodeVal r.dictionary v < r.rowIdsById.length) :
    rleIndexOk (r.pushAdditional v c) := by
  obtain ⟨hlen, hrows, hinv⟩ := hok
  by_cases hc : c = 0
  · rw [RLE.pushAdditional.eq_def, if_pos hc]
    exact ⟨hlen, hrows, hinv⟩
  refine ⟨?_, ?_, ?_⟩
  · rw [rle_push_dictionary]
    rw [RLE.pushAdditional.eq_def, if_neg hc]
    simp only [setUnionAt, List.length_set]
    exact hlen
  · rw [rle_push_expand, rle_push_numRows]
    simp
    omega
  · intro e
    have hindex : (r.pushAdditional v c).rowIdsById =
        setUnionAt r.rowIdsById (encodeVal r.dictionary v)
          (Finset.Ico r.numRows (r.numRows + c)) := by
      rw [RLE.pushAdditional.eq_def, if_neg hc]
    rw [hindex, rle_push_expand, rle_push_numRows, hrows,
      filter_range_append_replicate]
    by_cases he : e = encodeVal r.dictionary v
    · subst he
      rw [getD_setUnionAt_self _ _ _ hid, hinv _, if_pos rfl, hrows]
    · rw [getD_setUnionAt_ne _ _ _ _ he, hinv e, if_neg he, hrows]
      simp

theorem rle_foldl_indexOk (batches : List (Option String × Nat)) :
    ∀ r : RLE, rleIndexOk r →
      (∀ b ∈ batches, ∀ s, b.1 = some s → s ∈ r.dictionary) →
      rleIndexOk (batches.foldl (fun q b => q.pushAdditional b.1 b.2) r) := by
  induction batches with
  | nil => intro r hok _; exact hok
  | cons b bs ih =>
    intro r hok hvals
    rw [List.foldl_cons]
    have hid : encodeVal r.dictionary b.1 < r.rowIdsById.length := by
      rw [hok.1]
      cases hb : b.1 with
      | none => simp [encodeVal]
      | some s =>
        have hs : s ∈ r.dictionary := hvals b (List.mem_cons_self b bs) s hb
        have := dictIndex_lt_length r.dictionary s hs
        simp [encodeVal]
        omega
    refine ih _ (rleIndexOk_push r b.1 b.2 hok hid) ?_
    intro b2 hb2 s hs
    rw [rle_push_dictionary]
    exact hvals b2 (List.mem_cons_of_mem b hb2) s hs

/-- The inverted index of the built RLE encoding holds, for every encoded
id, exactly the rows carrying that id. -/
theorem built_rle_index (a : Option String) (rest : List (Option String)) :
    ∀ e, (rleFold (buildDictionary (a :: rest)) (rleBatches a rest)).rowIdsById.getD e ∅ =
      (Finset.range (a :: rest).length).filter
        (fun row =>
          ((a :: rest).map (encodeVal (buildDictionary (a :: rest)))).getD row 0 = e) := by
  have hvals : ∀ b ∈ rleBatches a rest, ∀ s, b.1 = some s →
      s ∈ (RLE.withDictionary (buildDictionary (a :: rest))).dictionary := by
    intro b hb s hs
    have hmem := batch_val_mem_expand _ (rleBatches_counts_pos a rest) b hb
    rw [expandBatches_rleBatches, hs] at hmem
    rw [RLE.withDictionary]
    exact (buildDictionary_mem (a :: rest) s).mpr hmem
  have hok : rleIndexOk (rleFold (buildDictionary (a :: rest)) (rleBatches a rest)) :=
    rle_foldl_indexOk (rleBatches a rest)
      (RLE.withDictionary (buildDictionary (a :: rest)))
      (rleIndexOk_withDictionary _) hvals
  intro e
  rw [hok.2.2 e, hok.2.1, built_rle_expand]
  simp

/-- Every id the builder stores is at most the dictionary size. -/
theorem built_ids_le (a : Option String) (rest : List (Option String)) :
    ∀ id ∈ (a :: rest).map (encodeVal (buildDictionary (a :: rest))),
      id ≤ (buildDictionary (a :: rest)).length := by
  intro id hid
  rcases List.mem_map.mp hid with ⟨v, hv, hvid⟩
  cases v with
  | none => rw [← hvid]; simp [encodeVal]
  | some s =>
    have hs : s ∈ buildDictionary (a :: rest) :=
      (buildDictionary_mem (a :: rest) s).mpr hv
    have := dictIndex_lt_length _ s hs
    rw [← hvid]
    simp [encodeVal]
    omega

/-! ## Equivalence of the two encodings: supporting lemmas -/

theorem bool_eq_of_iff {a b : Bool} (h : a = true ↔ b = true) : a = b := by
  cases a <;> cases b <;> simp_all

theorem getD_eq_get (L : List Nat) (i : Nat) (h : i < L.length) :
    L.getD i 0 = L.get ⟨i, h⟩ := by
  rw [List.getD_eq_getD_get?, List.get?_eq_get h]
  rfl

theorem mem_iff_getD (L : List Nat) (x : Nat) :
    x ∈ L ↔ ∃ i, ∃ _ : i < L.length, L.getD i 0 = x := by
  rw [List.mem_iff_get]
  constructor
  · rintro ⟨⟨i, hi⟩, hget⟩
    exact ⟨i, hi, by rw [getD_eq_get L i hi]; exact hget⟩
  · rintro ⟨i, hi, hget⟩
    exact ⟨⟨i, hi⟩, by rw [← getD_eq_get L i hi]; exact hget⟩

theorem getD_mem_of_lt (L : List Nat) (i : Nat) (h : i < L.length) :
    L.getD i 0 ∈ L := by
  rw [getD_eq_get L i h]
  exact L.get_mem i h

/-- Membership in a left fold of unions. -/
theorem mem_foldl_union (l : List Nat) (g : Nat → RowIDs) (row : Nat) :
    ∀ init : RowIDs,
      (row ∈ l.foldl (fun acc e => acc ∪ g e) init ↔ row ∈ init ∨ ∃ e ∈ l, row ∈ g e) := by
  induction l with
  | nil => intro init; simp
  | cons x l ih =>
    intro init
    rw [List.foldl_cons, ih (init ∪ g x)]
    simp only [Finset.mem_union, List.mem_cons]
    constructor
    · rintro ((h | h) | ⟨e, he, hrow⟩)
      · exact Or.inl h
      · exact Or.inr ⟨x, Or.inl rfl, h⟩
      · exact Or.inr ⟨e, Or.inr he, hrow⟩
    · rintro (h | ⟨e, he | he, hrow⟩)
      · exact Or.inl (Or.inl h)
      · exact Or.inl (Or.inr (he ▸ hrow))
      · exact Or.inr ⟨e, he, hrow⟩

/-- On the built column, the RLE union-of-index-sets filter step coincides
with the plain linear scan of the id sequence. -/
theorem built_unionSets (a : Option String) (rest : List (Option String)) (pred : Nat → Bool) :
    (rleFold (buildDictionary (a :: rest)) (rleBatches a rest)).unionSets pred =
      scanFilter ((a :: rest).map (encodeVal (buildDictionary (a :: rest)))) pred := by
  set dict := buildDictionary (a :: rest) with hdictdef
  set L := (a :: rest).map (encodeVal dict) with hLdef
  have hlen : L.length = (a :: rest).length := by rw [hLdef]; simp
  ext row
  rw [RLE.unionSets, mem_foldl_union]
  rw [scanFilter, Finset.mem_filter, Finset.mem_range]
  simp only [Finset.not_mem_empty, false_or, List.mem_filter, List.mem_range]
  rw [rleFold_dictionary]
  constructor
  · rintro ⟨e, ⟨helt, hepred⟩, hrow⟩
    rw [built_rle_index a rest e] at hrow
    rw [Finset.mem_filter, Finset.mem_range] at hrow
    refine ⟨by omega, ?_⟩
    rw [← hLdef] at hrow
    rw [hrow.2, hepred]
  · rintro ⟨hlt, hpred⟩
    refine ⟨L.getD row 0, ⟨?_, hpred⟩, ?_⟩
    · have hmem : L.getD row 0 ∈ L := getD_mem_of_lt L row (by omega)
      have hb := built_ids_le a rest (L.getD row 0) (by rw [hLdef] at hmem; exact hmem)
      rw [← hdictdef] at hb
      omega
    · rw [built_rle_index a rest]
      rw [Finset.mem_filter, Finset.mem_range]
      exact ⟨by omega, rfl⟩

/-- The cardinality of a scan filter is the matching count of the list. -/
theorem card_filter_range_getD (p : Nat → Bool) :
    ∀ L : List Nat,
      ((Finset.range L.length).filter (fun i => p (L.getD i 0) = true)).card = L.countP p := by
  intro L
  induction L using List.reverseRecOn with
  | nil => simp
  | append_singleton L x ih =>
    rw [List.countP_append, List.length_append]
    simp only [List.length_singleton]
    rw [Finset.range_succ, Finset.filter_insert]
    have hsame : (Finset.range L.length).filter
        (fun i => p ((L ++ [x]).getD i 0) = true) =
        (Finset.range L.length).filter (fun i => p (L.getD i 0) = true) := by
      apply Finset.filter_congr
      intro i hi
      rw [Finset.mem_range] at hi
      rw [List.getD_append _ _ _ _ hi]
    have hlast : (L ++ [x]).getD L.length 0 = x := by
      rw [List.getD_append_right _ _ _ _ le_rfl]
      simp
    by_cases hx : p x = true
    · rw [if_pos (by rw [hlast]; exact hx)]
      rw [Finset.card_insert_of_not_mem (by simp)]
      rw [hsame, ih]
      simp [List.countP_cons, hx]
    · rw [if_neg (by rw [hlast]; exact hx)]
      rw [hsame, ih]
      simp [List.countP_cons, hx]

/-- The column the ingest path builds when forced to the plain encoding
(junk value on the empty input, where the source panics). -/
def builtPlain (arr : List (Option String)) : StringEncoding :=
  (builtForcedPlain arr).getD (.Dictionary (Plain.withDictionary []))

/-- The column the ingest path builds when forced to the RLE encoding. -/
def builtRLE (arr : List (Option String)) : StringEncoding :=
  (builtForcedRLE arr).getD (.Dictionary (Plain.withDictionary []))

theorem builtPlain_cons (a : Option String) (rest : List (Option String)) :
    builtPlain (a :: rest) =
      StringEncoding.Dictionary
        (plainFold (buildDictionary (a :: rest)) (rleBatches a rest)) := by
  rw [builtPlain, builtForcedPlain_cons]
  rfl

theorem builtRLE_cons (a : Option String) (rest : List (Option String)) :
    builtRLE (a :: rest) =
      StringEncoding.RLEDictionary
        (rleFold (buildDictionary (a :: rest)) (rleBatches a rest)) := by
  rw [builtRLE, builtForcedRLE_cons]
  rfl

/-- On the built column, the run walk reads off the encoded input. -/
theorem built_walk (a : Option String) (rest : List (Option String)) (row : Nat) :
    runIdAt (rleFold (buildDictionary (a :: rest)) (rleBatches a rest)).runs row =
      ((a :: rest).map (encodeVal (buildDictionary (a :: rest)))).getD row 0 := by
  rw [runIdAt_eq_getD, built_rle_expand]

/-- The per-id inverted-index entry of the built column equals the plain
scan for that id. -/
theorem built_index_eq_scanFilter (a : Option String) (rest : List (Option String)) (e : Nat) :
    (rleFold (buildDictionary (a :: rest)) (rleBatches a rest)).rowIdsById.getD e ∅ =
      scanFilter ((a :: rest).map (encodeVal (buildDictionary (a :: rest))))
        (fun id => id = e) := by
  rw [built_rle_index, scanFilter]
  rw [show ((a :: rest).map (encodeVal (buildDictionary (a :: rest)))).length =
    (a :: rest).length by simp]
  apply Finset.filter_congr
  intro row _
  simp

/-- The two encodings carry identical cached minima. -/
theorem built_colMin_eq (a : Option String) (rest : List (Option String)) :
    (plainFold (buildDictionary (a :: rest)) (rleBatches a rest)).colMin =
      (rleFold (buildDictionary (a :: rest)) (rleBatches a rest)).colMin := by
  rw [plainFold, plain_foldl_colMin _ (rleBatches_counts_pos a rest),
    rleFold, rle_foldl_colMin _ (rleBatches_counts_pos a rest)]
  rfl

/-- The two encodings carry identical cached maxima. -/
theorem built_colMax_eq (a : Option String) (rest : List (Option String)) :
    (plainFold (buildDictionary (a :: rest)) (rleBatches a rest)).colMax =
      (rleFold (buildDictionary (a :: rest)) (rleBatches a rest)).colMax := by
  rw [plainFold, plain_foldl_colMax _ (rleBatches_counts_pos a rest),
    rleFold, rle_foldl_colMax _ (rleBatches_counts_pos a rest)]
  rfl

/-- The count of an id in a list is the cardinality of the index-set of
positions holding it. -/
theorem count_eq_card_filter (L : List Nat) (e : Nat) :
    L.count e = ((Finset.range L.length).filter (fun row => L.getD row 0 = e)).card := by
  have h := card_filter_range_getD (fun x => decide (x = e)) L
  rw [show ((Finset.range L.length).filter (fun row => L.getD row 0 = e)) =
      ((Finset.range L.length).filter
        (fun i => (fun x => decide (x = e)) (L.getD i 0) = true)) from
    Finset.filter_congr (fun row _ => by simp)]
  rw [h, List.count]
  symm
  apply List.countP_congr
  intro x _
  simp

/-- The count of an id in the id sequence is the cardinality of its
inverted-index entry. -/
theorem built_count_eq_card (a : Option String) (rest : List (Option String)) (e : Nat) :
    ((a :: rest).map (encodeVal (buildDictionary (a :: rest)))).count e =
      ((rleFold (buildDictionary (a :: rest))
        (rleBatches a rest)).rowIdsById.getD e ∅).card := by
  rw [built_rle_index, count_eq_card_filter]
  rw [show ((a :: rest).map (encodeVal (buildDictionary (a :: rest)))).length =
    ((a :: rest) : List (Option String)).length by simp]

theorem foldr_replicate_expand {α : Type} (f : Nat → α) (runs : List (Nat × Nat)) :
    runs.foldr (fun p acc => List.replicate p.2 (f p.1) ++ acc) [] =
      (expandRuns runs).map f := by
  induction runs with
  | nil => rfl
  | cons p rest ih =>
    have hexp : expandRuns (p :: rest) = List.replicate p.2 p.1 ++ expandRuns rest := rfl
    rw [List.foldr_cons, ih, hexp, List.map_append, List.map_replicate]

/-- **C5.** For every constructible input, a column built with the plain
encoding and one built with the run-length encoding (selection forced, as
the spec suggests, by moving the threshold) answer identically on every
public operation of the facade. -/
theorem C5_encoding_equivalence (arr : List (Option String)) (r : Nat)
    (rows : List Nat) (v : String) (op : Operator) (encId : Nat)
    (valueSet : Finset String) (dstIds : List Nat) (dstRows : RowIDs)
    (h1 : arr ≠ []) :
    (builtPlain arr).numRows = (builtRLE arr).numRows ∧
    (builtPlain arr).containsNull = (builtRLE arr).containsNull ∧
    (builtPlain arr).hasAnyNonNullValue = (builtRLE arr).hasAnyNonNullValue ∧
    (builtPlain arr).hasNonNullValue rows = (builtRLE arr).hasNonNullValue rows ∧
    (builtPlain arr).hasOtherNonNullValues valueSet =
      (builtRLE arr).hasOtherNonNullValues valueSet ∧
    (builtPlain arr).value r = (builtRLE arr).value r ∧
    (builtPlain arr).values rows = (builtRLE arr).values rows ∧
    (builtPlain arr).allValues = (builtRLE arr).allValues ∧
    (builtPlain arr).decodeId encId = (builtRLE arr).decodeId encId ∧
    (builtPlain arr).distinctValues rows = (builtRLE arr).distinctValues rows ∧
    (builtPlain arr).rowIdsFilter op v dstRows = (builtRLE arr).rowIdsFilter op v dstRows ∧
    (builtPlain arr).min rows = (builtRLE arr).min rows ∧
    (builtPlain arr).max rows = (builtRLE arr).max rows ∧
    (builtPlain arr).count rows = (builtRLE arr).count rows ∧
    (builtPlain arr).encodedValues rows dstIds = (builtRLE arr).encodedValues rows dstIds ∧
    (builtPlain arr).allEncodedValues dstIds = (builtRLE arr).allEncodedValues dstIds := by
  rcases arr with _ | ⟨a, rest⟩
  · exact absurd rfl h1
  rw [builtPlain_cons, builtRLE_cons]
  have hvfun : (plainFold (buildDictionary (a :: rest)) (rleBatches a rest)).value =
      (rleFold (buildDictionary (a :: rest)) (rleBatches a rest)).value := by
    funext rowId
    rw [Plain.value, RLE.value, built_plain_ids, plainFold_dictionary,
      rleFold_dictionary, built_walk]
  refine ⟨?_, ?_, ?_, ?_, ?_, ?_, ?_, ?_, ?_, ?_, ?_, ?_, ?_, ?_, ?_, ?_⟩
  · -- num_rows
    simp only [StringEncoding.numRows]
    rw [Plain.numRows, built_plain_ids, rleFold_numRows, expandBatches_rleBatches]
    simp
  · -- contains_null
    simp only [StringEncoding.containsNull]
    apply bool_eq_of_iff
    rw [Plain.containsNull, RLE.containsNull, built_plain_ids, List.elem_iff,
      decide_eq_true_eq, ← Finset.nonempty_iff_ne_empty, built_index_eq_scanFilter,
      mem_iff_getD, scanFilter]
    constructor
    · rintro ⟨i, hi, hget⟩
      refine ⟨i, Finset.mem_filter.mpr ⟨Finset.mem_range.mpr hi, ?_⟩⟩
      simp only [decide_eq_true_eq]
      exact hget
    · rintro ⟨i, hmem⟩
      rw [Finset.mem_filter, Finset.mem_range] at hmem
      have h2 := hmem.2
      simp only [decide_eq_true_eq] at h2
      exact ⟨i, hmem.1, h2⟩
  · -- has_any_non_null_value
    simp only [StringEncoding.hasAnyNonNullValue]
    rw [Plain.hasAnyNonNullValue, RLE.hasAnyNonNullValue, built_plain_ids,
      ← built_count_eq_card, rleFold_numRows, expandBatches_rleBatches]
    simp
  · -- has_non_null_value
    simp only [StringEncoding.hasNonNullValue]
    rw [Plain.hasNonNullValue, RLE.hasNonNullValue, built_plain_ids]
    simp only [built_walk]
  · -- has_other_non_null_values
    simp only [StringEncoding.hasOtherNonNullValues]
    apply bool_eq_of_iff
    rw [Plain.hasOtherNonNullValues, RLE.hasOtherNonNullValues, built_plain_ids,
      plainFold_dictionary, rleFold_dictionary, List.any_eq_true, List.any_eq_true]
    constructor
    · rintro ⟨id, hidmem, hp⟩
      rw [Bool.and_eq_true] at hp
      obtain ⟨hid0, hnotin⟩ := hp
      have hid0' : id ≠ 0 := by simpa using hid0
      have hle := built_ids_le a rest id hidmem
      obtain ⟨row, hrow, hval⟩ := (mem_iff_getD _ id).mp hidmem
      refine ⟨id - 1, List.mem_range.mpr (by omega), ?_⟩
      rw [Bool.and_eq_true]
      constructor
      · rw [show id - 1 = id - 1 from rfl]
        simpa using hnotin
      · rw [decide_eq_true_eq, ← Finset.nonempty_iff_ne_empty, built_rle_index]
        refine ⟨row, Finset.mem_filter.mpr ⟨Finset.mem_range.mpr (by simpa using hrow), ?_⟩⟩
        rw [hval]
        omega
    · rintro ⟨j, hjmem, hp⟩
      rw [Bool.and_eq_true] at hp
      obtain ⟨hnotin, hne⟩ := hp
      rw [decide_eq_true_eq, ← Finset.nonempty_iff_ne_empty, built_rle_index] at hne
      obtain ⟨row, hrowmem⟩ := hne
      rw [Finset.mem_filter, Finset.mem_range] at hrowmem
      refine ⟨j + 1, ?_, ?_⟩
      · rw [← hrowmem.2]
        exact getD_mem_of_lt _ row (by simpa using hrowmem.1)
      · rw [Bool.and_eq_true]
        refine ⟨by simp, ?_⟩
        simpa using hnotin
  · -- value
    simp only [StringEncoding.value]
    rw [hvfun]
  · -- values
    simp only [StringEncoding.values, Plain.values, RLE.values, hvfun]
  · -- all_values
    simp only [StringEncoding.allValues, Plain.allValues, RLE.allValues]
    rw [foldr_replicate_expand, built_rle_expand, built_plain_ids,
      plainFold_dictionary, rleFold_dictionary]
  · -- decode_id
    simp only [StringEncoding.decodeId]
    rw [Plain.decodeId, RLE.decodeId, plainFold_dictionary, rleFold_dictionary]
  · -- distinct_values
    simp only [StringEncoding.distinctValues, Plain.distinctValues, RLE.distinctValues,
      hvfun]
  · -- row_ids_filter
    simp only [StringEncoding.rowIdsFilter, Plain.rowIdsFilter, RLE.rowIdsFilter,
      plainFold_dictionary, rleFold_dictionary, built_plain_ids]
    cases op with
    | equal =>
      simp only
      by_cases heq : countLt (buildDictionary (a :: rest)) v =
          countLe (buildDictionary (a :: rest)) v
      · rw [if_pos heq, if_pos heq]
      · rw [if_neg heq, if_neg heq, built_index_eq_scanFilter]
    | notEqual =>
      simp only
      by_cases heq : countLt (buildDictionary (a :: rest)) v =
          countLe (buildDictionary (a :: rest)) v
      · rw [if_pos heq, if_pos heq, built_unionSets]
      · rw [if_neg heq, if_neg heq, built_unionSets]
    | lt => simp only; rw [built_unionSets]
    | lte => simp only; rw [built_unionSets]
    | gt => simp only; rw [built_unionSets]
    | gte => simp only; rw [built_unionSets]
  · -- min
    simp only [StringEncoding.min]
    rw [Plain.min, RLE.min, built_plain_ids, plainFold_dictionary, rleFold_dictionary]
    simp only [built_walk]
  · -- max
    simp only [StringEncoding.max]
    rw [Plain.max, RLE.max, built_plain_ids, plainFold_dictionary, rleFold_dictionary]
    simp only [built_walk]
  · -- count
    simp only [StringEncoding.count]
    rw [Plain.count, RLE.count, built_plain_ids]
    simp only [built_walk]
  · -- encoded_values
    simp only [StringEncoding.encodedValues, Plain.encodedValues, RLE.encodedValues,
      built_plain_ids]
    simp only [built_walk]
  · -- all_encoded_values
    simp only [StringEncoding.allEncodedValues, Plain.allEncodedValues,
      RLE.allEncodedValues, built_plain_ids]
    rw [show (rleFold (buildDictionary (a :: rest)) (rleBatches a rest)).runs.foldr
        (fun p acc => List.replicate p.2 p.1 ++ acc) [] =
      expandRuns (rleFold (buildDictionary (a :: rest)) (rleBatches a rest)).runs from rfl]
    rw [built_rle_expand]

/-- Witness for C5 on `["x", NULL, "x", "y"]` with concrete operation
arguments. -/
theorem C5_encoding_equivalence_witness :
    (builtPlain [some "x", none, some "x", some "y"]).numRows =
      (builtRLE [some "x", none, some "x", some "y"]).numRows ∧
    (builtPlain [some "x", none, some "x", some "y"]).containsNull =
      (builtRLE [some "x", none, some "x", some "y"]).containsNull ∧
    (builtPlain [some "x", none, some "x", some "y"]).hasAnyNonNullValue =
      (builtRLE [some "x", none, some "x", some "y"]).hasAnyNonNullValue ∧
    (builtPlain [some "x", none, some "x", some "y"]).hasNonNullValue [0, 1, 3] =
      (builtRLE [some "x", none, some "x", some "y"]).hasNonNullValue [0, 1, 3] ∧
    (builtPlain [some "x", none, some "x", some "y"]).hasOtherNonNullValues {"x"} =
      (builtRLE [some "x", none, some "x", some "y"]).hasOtherNonNullValues {"x"} ∧
    (builtPlain [some "x", none, some "x", some "y"]).value 2 =
      (builtRLE [some "x", none, some "x", some "y"]).value 2 ∧
    (builtPlain [some "x", none, some "x", some "y"]).values [0, 1, 3] =
      (builtRLE [some "x", none, some "x", some "y"]).values [0, 1, 3] ∧
    (builtPlain [some "x", none, some "x", some "y"]).allValues =
      (builtRLE [some "x", none, some "x", some "y"]).allValues ∧
    (builtPlain [some "x", none, some "x", some "y"]).decodeId 2 =
      (builtRLE [some "x", none, some "x", some "y"]).decodeId 2 ∧
    (builtPlain [some "x", none, some "x", some "y"]).distinctValues [0, 1, 3] =
      (builtRLE [some "x", none, some "x", some "y"]).distinctValues [0, 1, 3] ∧
    (builtPlain [some "x", none, some "x", some "y"]).rowIdsFilter .lt "x" {9} =
      (builtRLE [some "x", none, some "x", some "y"]).rowIdsFilter .lt "x" {9} ∧
    (builtPlain [some "x", none, some "x", some "y"]).min [0, 1, 3] =
      (builtRLE [some "x", none, some "x", some "y"]).min [0, 1, 3] ∧
    (builtPlain [some "x", none, some "x", some "y"]).max [0, 1, 3] =
      (builtRLE [some "x", none, some "x", some "y"]).max [0, 1, 3] ∧
    (builtPlain [some "x", none, some "x", some "y"]).count [0, 1, 3] =
      (builtRLE [some "x", none, some "x", some "y"]).count [0, 1, 3] ∧
    (builtPlain [some "x", none, some "x", some "y"]).encodedValues [0, 1, 3] [7] =
      (builtRLE [some "x", none, some "x", some "y"]).encodedValues [0, 1, 3] [7] ∧
    (builtPlain [some "x", none, some "x", some "y"]).allEncodedValues [7] =
      (builtRLE [some "x", none, some "x", some "y"]).allEncodedValues [7] :=
  C5_encoding_equivalence [some "x", none, some "x", some "y"] 2 [0, 1, 3] "x"
    .lt 2 {"x"} [7] {9} (by decide)

/-! ## Aggregates agree with a naive scan -/

theorem dictIndex_get (dict : List String) (s : String) (h : s ∈ dict) :
    dict.get ⟨dictIndex dict s, dictIndex_lt_length dict s h⟩ = s := by
  have h1 := get?_dictIndex dict s h
  rw [List.get?_eq_get (dictIndex_lt_length dict s h)] at h1
  exact Option.some.inj h1

theorem dictIndex_strictMono (dict : List String)
    (hsorted : List.Sorted (· < ·) dict) (s t : String)
    (hs : s ∈ dict) (ht : t ∈ dict)
    (hlt : dictIndex dict s < dictIndex dict t) : s < t := by
  have h := List.Sorted.rel_get_of_lt hsorted
    (show (⟨dictIndex dict s, dictIndex_lt_length dict s hs⟩ : Fin dict.length) <
      ⟨dictIndex dict t, dictIndex_lt_length dict t ht⟩ from hlt)
  rwa [dictIndex_get dict s hs, dictIndex_get dict t ht] at h

theorem dictIndex_inj (dict : List String) (s t : String)
    (hs : s ∈ dict) (ht : t ∈ dict)
    (heq : dictIndex dict s = dictIndex dict t) : s = t := by
  have h1 := dictIndex_get dict s hs
  have h2 := dictIndex_get dict t ht
  rw [← h1, ← h2]
  congr 1
  exact Fin.ext heq

theorem dictIndex_le_iff (dict : List String)
    (hsorted : List.Sorted (· < ·) dict) (s t : String)
    (hs : s ∈ dict) (ht : t ∈ dict) :
    dictIndex dict s ≤ dictIndex dict t ↔ s ≤ t := by
  constructor
  · intro h
    rcases Nat.lt_or_ge (dictIndex dict s) (dictIndex dict t) with h1 | h1
    · exact le_of_lt (dictIndex_strictMono dict hsorted s t hs ht h1)
    · exact le_of_eq (dictIndex_inj dict s t hs ht (by omega))
  · intro h
    by_contra hc
    push_neg at hc
    exact absurd (dictIndex_strictMono dict hsorted t s ht hs hc) (not_lt.mpr h)

theorem dictIndex_min_plus (dict : List String)
    (hsorted : List.Sorted (· < ·) dict) (s t : String)
    (hs : s ∈ dict) (ht : t ∈ dict) :
    min (dictIndex dict s + 1) (dictIndex dict t + 1) =
      dictIndex dict (min s t) + 1 := by
  by_cases h : s ≤ t
  · have hle := (dictIndex_le_iff dict hsorted s t hs ht).mpr h
    rw [min_eq_left h, min_eq_left (Nat.succ_le_succ hle)]
  · have hle := (dictIndex_le_iff dict hsorted t s ht hs).mpr (le_of_not_le h)
    rw [min_eq_right (le_of_not_le h), min_eq_right (Nat.succ_le_succ hle)]

theorem dictIndex_max_plus (dict : List String)
    (hsorted : List.Sorted (· < ·) dict) (s t : String)
    (hs : s ∈ dict) (ht : t ∈ dict) :
    max (dictIndex dict s + 1) (dictIndex dict t + 1) =
      dictIndex dict (max s t) + 1 := by
  by_cases h : s ≤ t
  · have hle := (dictIndex_le_iff dict hsorted s t hs ht).mpr h
    rw [max_eq_right h, max_eq_right (Nat.succ_le_succ hle)]
  · have hle := (dictIndex_le_iff dict hsorted t s ht hs).mpr (le_of_not_le h)
    rw [max_eq_left (le_of_not_le h), max_eq_left (Nat.succ_le_succ hle)]

theorem min_mem_dict (dict : List String) (s t : String)
    (hs : s ∈ dict) (ht : t ∈ dict) : min s t ∈ dict := by
  rcases min_choice s t with h | h
  · rw [h]; exact hs
  · rw [h]; exact ht

theorem max_mem_dict (dict : List String) (s t : String)
    (hs : s ∈ dict) (ht : t ∈ dict) : max s t ∈ dict := by
  rcases max_choice s t with h | h
  · rw [h]; exact hs
  · rw [h]; exact ht

/-- The minimum-id scan decodes to the naive lexicographic minimum scan
over the logical values, because the dictionary is sorted. -/
theorem minNonNullId_correct (dict : List String)
    (hsorted : List.Sorted (· < ·) dict) (arr : List (Option String))
    (hdict : ∀ s, some s ∈ arr → s ∈ dict) (idAt : Nat → Nat)
    (hidAt : ∀ i, i < arr.length → idAt i = encodeVal dict (arr.getD i none)) :
    ∀ rows : List Nat, (∀ i ∈ rows, i < arr.length) →
    ∀ (acc : Nat) (accv : Option String),
      ((acc = 0 ∧ accv = none) ∨
        (∃ s, accv = some s ∧ s ∈ dict ∧ acc = dictIndex dict s + 1)) →
      dictDecode dict
        (rows.foldl
          (fun acc2 r =>
            if idAt r = 0 then acc2
            else if acc2 = 0 then idAt r else min acc2 (idAt r)) acc) =
        (rows.map (fun r => arr.getD r none)).foldl stepMin accv := by
  intro rows
  induction rows with
  | nil =>
    intro _ acc accv hrel
    rcases hrel with ⟨h0, hv⟩ | ⟨s, hv, hmem, hidx⟩
    · rw [h0, hv]; rfl
    · rw [hv, hidx]
      simp only [List.foldl_nil, List.map_nil, dictDecode]
      rw [if_neg (by omega)]
      simpa using get?_dictIndex dict s hmem
  | cons r rows ih =>
    intro hrows acc accv hrel
    have hr : r < arr.length := hrows r (List.mem_cons_self r rows)
    have hrest : ∀ i ∈ rows, i < arr.length :=
      fun i hi => hrows i (List.mem_cons_of_mem r hi)
    rw [List.foldl_cons, List.map_cons, List.foldl_cons]
    rcases hv : arr.getD r none with _ | s
    · have hid : idAt r = 0 := by rw [hidAt r hr, hv]; rfl
      rw [show ((if idAt r = 0 then acc
          else if acc = 0 then idAt r else min acc (idAt r)) : Nat) = acc by
        rw [if_pos hid]]
      rw [show stepMin accv none = accv from rfl]
      exact ih hrest acc accv hrel
    · have hs : s ∈ dict := hdict s (hv ▸ getD_mem arr r hr)
      have hid : idAt r = dictIndex dict s + 1 := by
        rw [hidAt r hr, hv]; rfl
      rcases hrel with ⟨h0, hvacc⟩ | ⟨m, hvacc, hmmem, hidx⟩
      · rw [show ((if idAt r = 0 then acc
            else if acc = 0 then idAt r else min acc (idAt r)) : Nat) =
            dictIndex dict s + 1 by
          rw [if_neg (by omega), if_pos h0, hid]]
        rw [hvacc, show stepMin none (some s) = some s from rfl]
        exact ih hrest _ _ (Or.inr ⟨s, rfl, hs, rfl⟩)
      · rw [show ((if idAt r = 0 then acc
            else if acc = 0 then idAt r else min acc (idAt r)) : Nat) =
            dictIndex dict (min m s) + 1 by
          rw [if_neg (by omega), if_neg (by omega), hid, hidx]
          exact dictIndex_min_plus dict hsorted m s hmmem hs]
        rw [hvacc, show stepMin (some m) (some s) = some (min m s) from rfl]
        exact ih hrest _ _ (Or.inr ⟨min m s, rfl, min_mem_dict dict m s hmmem hs, rfl⟩)

/-- The maximum-id scan decodes to the naive lexicographic maximum scan. -/
theorem maxNonNullId_correct (dict : List String)
    (hsorted : List.Sorted (· < ·) dict) (arr : List (Option String))
    (hdict : ∀ s, some s ∈ arr → s ∈ dict) (idAt : Nat → Nat)
    (hidAt : ∀ i, i < arr.length → idAt i = encodeVal dict (arr.getD i none)) :
    ∀ rows : List Nat, (∀ i ∈ rows, i < arr.length) →
    ∀ (acc : Nat) (accv : Option String),
      ((acc = 0 ∧ accv = none) ∨
        (∃ s, accv = some s ∧ s ∈ dict ∧ acc = dictIndex dict s + 1)) →
      dictDecode dict (rows.foldl (fun acc2 r => max acc2 (idAt r)) acc) =
        (rows.map (fun r => arr.getD r none)).foldl stepMax accv := by
  intro rows
  induction rows with
  | nil =>
    intro _ acc accv hrel
    rcases hrel with ⟨h0, hv⟩ | ⟨s, hv, hmem, hidx⟩
    · rw [h0, hv]; rfl
    · rw [hv, hidx]
      simp only [List.foldl_nil, List.map_nil, dictDecode]
      rw [if_neg (by omega)]
      simpa using get?_dictIndex dict s hmem
  | cons r rows ih =>
    intro hrows acc accv hrel
    have hr : r < arr.length := hrows r (List.mem_cons_self r rows)
    have hrest : ∀ i ∈ rows, i < arr.length :=
      fun i hi => hrows i (List.mem_cons_of_mem r hi)
    rw [List.foldl_cons, List.map_cons, List.foldl_cons]
    rcases hv : arr.getD r none with _ | s
    · have hid : idAt r = 0 := by rw [hidAt r hr, hv]; rfl
      rw [show max acc (idAt r) = acc by rw [hid]; exact Nat.max_zero acc]
      rw [show stepMax accv none = accv from rfl]
      exact ih hrest acc accv hrel
    · have hs : s ∈ dict := hdict s (hv ▸ getD_mem arr r hr)
      have hid : idAt r = dictIndex dict s + 1 := by
        rw [hidAt r hr, hv]; rfl
      rcases hrel with ⟨h0, hvacc⟩ | ⟨m, hvacc, hmmem, hidx⟩
      · rw [show max acc (idAt r) = dictIndex dict s + 1 by
          rw [hid, h0]; exact Nat.zero_max _]
        rw [hvacc, show stepMax none (some s) = some s from rfl]
        exact ih hrest _ _ (Or.inr ⟨s, rfl, hs, rfl⟩)
      · rw [show max acc (idAt r) = dictIndex dict (max m s) + 1 by
          rw [hid, hidx]
          exact dictIndex_max_plus dict hsorted m s hmmem hs]
        rw [hvacc, show stepMax (some m) (some s) = some (max m s) from rfl]
        exact ih hrest _ _ (Or.inr ⟨max m s, rfl, max_mem_dict dict m s hmmem hs, rfl⟩)

theorem match_valueOfOpt (o : Option String) :
    (match o with | some v => Value.String v | none => Value.Null) = valueOfOpt o := by
  cases o <;> rfl

theorem valueOfOpt_eq_null (o : Option String) :
    valueOfOpt o = Value.Null ↔ o = none := by
  cases o <;> simp [valueOfOpt]

/-- The non-null row count agrees with a naive scan over the logical
values. -/
theorem countNonNull_correct (dict : List String) (arr : List (Option String))
    (idAt : Nat → Nat)
    (hidAt : ∀ i, i < arr.length → idAt i = encodeVal dict (arr.getD i none)) :
    ∀ rows : List Nat, (∀ i ∈ rows, i < arr.length) →
      rows.countP (fun r => decide (idAt r ≠ 0)) =
        (rows.map (fun r => arr.getD r none)).countP (fun v => v.isSome) := by
  intro rows
  induction rows with
  | nil => intro _; rfl
  | cons r rows ih =>
    intro hrows
    have hr : r < arr.length := hrows r (List.mem_cons_self r rows)
    rw [List.map_cons, List.countP_cons, List.countP_cons,
      ih (fun i hi => hrows i (List.mem_cons_of_mem r hi))]
    congr 1
    rcases hv : arr.getD r none with _ | v
    · rw [show idAt r = 0 by rw [hidAt r hr, hv]; rfl]
      rfl
    · rw [show idAt r = dictIndex dict v + 1 by rw [hidAt r hr, hv]; rfl]
      simp

/-- **C7.** For every constructed column and row-id list within `[0, N)`,
`min(rows)` and `max(rows)` equal the naive lexicographic min/max scans over
the logical values (NULL exactly when every listed row is NULL), and
`count(rows)` is the number of non-null listed rows. -/
theorem C7_aggregates (arr : List (Option String)) (rows : List Nat)
    (h1 : arr ≠ []) (h2 : ∀ i ∈ rows, i < arr.length) :
    (built arr).min rows =
      valueOfOpt ((rows.map (fun r => arr.getD r none)).foldl stepMin none) ∧
    (built arr).max rows =
      valueOfOpt ((rows.map (fun r => arr.getD r none)).foldl stepMax none) ∧
    ((built arr).min rows = Value.Null ↔
      (rows.map (fun r => arr.getD r none)).all (fun v => v.isNone) = true) ∧
    ((built arr).max rows = Value.Null ↔
      (rows.map (fun r => arr.getD r none)).all (fun v => v.isNone) = true) ∧
    (built arr).count rows =
      (rows.map (fun r => arr.getD r none)).countP (fun v => v.isSome) := by
  rcases arr with _ | ⟨a, rest⟩
  · exact absurd rfl h1
  have hsorted := buildDictionary_sorted (a :: rest)
  have hdict : ∀ s, some s ∈ a :: rest → s ∈ buildDictionary (a :: rest) :=
    fun s hs => (buildDictionary_mem (a :: rest) s).mpr hs
  have hrel : ((0 : Nat) = 0 ∧ (none : Option String) = none) ∨
      (∃ s, (none : Option String) = some s ∧ s ∈ buildDictionary (a :: rest) ∧
        0 = dictIndex (buildDictionary (a :: rest)) s + 1) := Or.inl ⟨rfl, rfl⟩
  have hmin : (built (a :: rest)).min rows =
      valueOfOpt ((rows.map (fun r => (a :: rest).getD r none)).foldl stepMin none) := by
    rw [built_cons]
    by_cases h : (buildDictionary (a :: rest)).length >
        TEMP_CARDINALITY_DICTIONARY_ENCODING_LIMIT
    · rw [if_pos h]
      have hPmin : (plainFold (buildDictionary (a :: rest)) (rleBatches a rest)).min rows =
          (rows.map (fun r => (a :: rest).getD r none)).foldl stepMin none := by
        rw [Plain.min, plainFold_dictionary, built_plain_ids]
        exact minNonNullId_correct (buildDictionary (a :: rest)) hsorted (a :: rest)
          hdict
          (fun r => ((a :: rest).map (encodeVal (buildDictionary (a :: rest)))).getD r 0)
          (fun i hi => getD_map_encode (a :: rest) _ i hi) rows h2 0 none hrel
      simp only [StringEncoding.min]
      rw [hPmin]
      exact match_valueOfOpt _
    · rw [if_neg h]
      have hRmin : (rleFold (buildDictionary (a :: rest)) (rleBatches a rest)).min rows =
          (rows.map (fun r => (a :: rest).getD r none)).foldl stepMin none := by
        rw [RLE.min, rleFold_dictionary]
        exact minNonNullId_correct (buildDictionary (a :: rest)) hsorted (a :: rest)
          hdict
          (fun row => runIdAt
            (rleFold (buildDictionary (a :: rest)) (rleBatches a rest)).runs row)
          (fun i hi => by
            show runIdAt
                (rleFold (buildDictionary (a :: rest)) (rleBatches a rest)).runs i =
              encodeVal (buildDictionary (a :: rest)) ((a :: rest).getD i none)
            rw [built_walk]
            exact getD_map_encode (a :: rest) _ i hi) rows h2 0 none hrel
      simp only [StringEncoding.min]
      rw [hRmin]
      exact match_valueOfOpt _
  have hmax : (built (a :: rest)).max rows =
      valueOfOpt ((rows.map (fun r => (a :: rest).getD r none)).foldl stepMax none) := by
    rw [built_cons]
    by_cases h : (buildDictionary (a :: rest)).length >
        TEMP_CARDINALITY_DICTIONARY_ENCODING_LIMIT
    · rw [if_pos h]
      have hPmax : (plainFold (buildDictionary (a :: rest)) (rleBatches a rest)).max rows =
          (rows.map (fun r => (a :: rest).getD r none)).foldl stepMax none := by
        rw [Plain.max, plainFold_dictionary, built_plain_ids]
        exact maxNonNullId_correct (buildDictionary (a :: rest)) hsorted (a :: rest)
          hdict
          (fun r => ((a :: rest).map (encodeVal (buildDictionary (a :: rest)))).getD r 0)
          (fun i hi => getD_map_encode (a :: rest) _ i hi) rows h2 0 none hrel
      simp only [StringEncoding.max]
      rw [hPmax]
      exact match_valueOfOpt _
    · rw [if_neg h]
      have hRmax : (rleFold (buildDictionary (a :: rest)) (rleBatches a rest)).max rows =
          (rows.map (fun r => (a :: rest).getD r none)).foldl stepMax none := by
        rw [RLE.max, rleFold_dictionary]
        exact maxNonNullId_correct (buildDictionary (a :: rest)) hsorted (a :: rest)
          hdict
          (fun row => runIdAt
            (rleFold (buildDictionary (a :: rest)) (rleBatches a rest)).runs row)
          (fun i hi => by
            show runIdAt
                (rleFold (buildDictionary (a :: rest)) (rleBatches a rest)).runs i =
              encodeVal (buildDictionary (a :: rest)) ((a :: rest).getD i none)
            rw [built_walk]
            exact getD_map_encode (a :: rest) _ i hi) rows h2 0 none hrel
      simp only [StringEncoding.max]
      rw [hRmax]
      exact match_valueOfOpt _
  refine ⟨hmin, hmax, ?_, ?_, ?_⟩
  · rw [hmin, valueOfOpt_eq_null, foldl_stepMin_eq_none]
    simp
  · rw [hmax, valueOfOpt_eq_null, foldl_stepMax_eq_none]
    simp
  · rw [built_cons]
    by_cases h : (buildDictionary (a :: rest)).length >
        TEMP_CARDINALITY_DICTIONARY_ENCODING_LIMIT
    · rw [if_pos h]
      show (plainFold (buildDictionary (a :: rest)) (rleBatches a rest)).count rows = _
      rw [Plain.count, built_plain_ids]
      exact countNonNull_correct (buildDictionary (a :: rest)) (a :: rest)
        (fun r => ((a :: rest).map (encodeVal (buildDictionary (a :: rest)))).getD r 0)
        (fun i hi => getD_map_encode (a :: rest) _ i hi) rows h2
    · rw [if_neg h]
      show (rleFold (buildDictionary (a :: rest)) (rleBatches a rest)).count rows = _
      rw [RLE.count]
      exact countNonNull_correct (buildDictionary (a :: rest)) (a :: rest)
        (fun row => runIdAt
          (rleFold (buildDictionary (a :: rest)) (rleBatches a rest)).runs row)
        (fun i hi => by
          show runIdAt
              (rleFold (buildDictionary (a :: rest)) (rleBatches a rest)).runs i =
            encodeVal (buildDictionary (a :: rest)) ((a :: rest).getD i none)
          rw [built_walk]
          exact getD_map_encode (a :: rest) _ i hi) rows h2

/-- Witness for C7 on `["b", NULL, "a"]` with rows `[0, 1, 2]`. -/
theorem C7_aggregates_witness :
    (built [some "b", none, some "a"]).min [0, 1, 2] =
      valueOfOpt (([0, 1, 2].map
        (fun r => [some "b", none, some "a"].getD r none)).foldl stepMin none) ∧
    (built [some "b", none, some "a"]).max [0, 1, 2] =
      valueOfOpt (([0, 1, 2].map
        (fun r => [some "b", none, some "a"].getD r none)).foldl stepMax none) ∧
    ((built [some "b", none, some "a"]).min [0, 1, 2] = Value.Null ↔
      (([0, 1, 2].map (fun r => [some "b", none, some "a"].getD r none)).all
        (fun v => v.isNone)) = true) ∧
    ((built [some "b", none, some "a"]).max [0, 1, 2] = Value.Null ↔
      (([0, 1, 2].map (fun r => [some "b", none, some "a"].getD r none)).all
        (fun v => v.isNone)) = true) ∧
    (built [some "b", none, some "a"]).count [0, 1, 2] =
      ([0, 1, 2].map (fun r => [some "b", none, some "a"].getD r none)).countP
        (fun v => v.isSome) :=
  C7_aggregates [some "b", none, some "a"] [0, 1, 2] (by decide) (by decide)
